import Mathlib

/-
  Verification development for the JSON value model, serializer and
  recursive-descent parser of the Cpp-SupportLibrary repository
  (class giri::json::JSON and the parse_* helpers).

  Modelling conventions:
  * std::string is modelled as List Char (bytes in the ASCII range behave
    identically; ordering of keys uses the character code, matching
    char_traits<char>::compare which compares bytes as unsigned values).
  * The std::map<std::string, JSON> backing an Object is modelled as a
    key-sorted association list (JEntries below); std::map iterates in
    ascending key order and operator[] inserts keeping that order.
  * long long is modelled as Int (all integers appearing in the claims are
    far from the 64-bit range ends; overflow behaviour is not relied on).
  * double is modelled as an exact rational (every finite double is a
    rational); the claims settled below never depend on double rounding.
  * The parser's shared cursor and success flag are threaded explicitly.
    Reading the input string at offset == size() yields the terminator
    '\0' (defined behaviour of std::string::operator[] const); reading at
    any larger offset is undefined behaviour in C++ and is modelled by the
    distinguished outcome POut.oob.  Uncaught C++ exceptions (std::stol on
    an empty string, std::string::substr past the end) are modelled by the
    outcome POut.exc.  Recursion is bounded by an explicit fuel parameter;
    running out of fuel gives the outcome POut.out, a model artifact that
    no theorem below ever asserts.
-/

set_option maxHeartbeats 1600000

namespace SupportLibJson

/-- Tags of the JSON tagged union (enum JSON::Class in the source). -/
inductive JClass where
  | null
  | object
  | array
  | strTag
  | floating
  | integral
  | boolean
deriving DecidableEq

mutual
/-- A JSON document node: the tagged union JSON of the source.  String, Array
and Object payloads are exclusively owned, so a node is just a tree. -/
inductive JValue where
  | null : JValue
  | boolean : Bool → JValue
  | integral : Int → JValue
  | floating : Rat → JValue
  | str : List Char → JValue
  | arr : JList → JValue
  | obj : JEntries → JValue
/-- Payload of an Array node (std::deque<JSON>). -/
inductive JList where
  | nil : JList
  | cons : JValue → JList → JList
/-- Payload of an Object node: std::map<std::string, JSON>, modelled as an
association list kept sorted by key in strictly ascending order (the order in
which std::map stores and iterates entries). -/
inductive JEntries where
  | nil : JEntries
  | cons : List Char → JValue → JEntries → JEntries
end

/-- Lexicographic strict order on keys: std::less<std::string>, which compares
character by character (bytes compared as unsigned values). -/
def keyLt : List Char → List Char → Bool
  | [], [] => false
  | [], _ :: _ => true
  | _ :: _, [] => false
  | a :: as, b :: bs => if a < b then true else if b < a then false else keyLt as bs

/-- Insertion into the sorted association list: the combined effect of
std::map::operator[] followed by assignment (insert the key at its ordered
position, or overwrite the mapped value if the key is already present). -/
def mapInsert (k : List Char) (v : JValue) : JEntries → JEntries
  | .nil => .cons k v .nil
  | .cons k0 v0 tl =>
    if keyLt k k0 then .cons k v (.cons k0 v0 tl)
    else if keyLt k0 k then .cons k0 v0 (mapInsert k v tl)
    else .cons k v tl

/-- Lookup in the association list (std::map::find). -/
def mapFind (k : List Char) : JEntries → Option JValue
  | .nil => none
  | .cons k0 v0 tl => if k = k0 then some v0 else mapFind k tl

/-- Number of entries (std::map::size). -/
def entriesLen : JEntries → Nat
  | .nil => 0
  | .cons _ _ tl => entriesLen tl + 1

/-- Number of elements of an Array payload (std::deque::size). -/
def jlen : JList → Nat
  | .nil => 0
  | .cons _ tl => jlen tl + 1

/-- Element access in an Array payload; total, with Null for out of range
(resize always precedes the accesses performed by the source). -/
def jget : JList → Nat → JValue
  | .nil, _ => .null
  | .cons v _, 0 => v
  | .cons _ tl, n + 1 => jget tl n

/-- Overwrite the element at an index of an Array payload. -/
def jset : JList → Nat → JValue → JList
  | .nil, _, _ => .nil
  | .cons _ tl, 0, w => .cons w tl
  | .cons v tl, n + 1, w => .cons v (jset tl n w)

/-- Append one element at the back (std::deque::emplace_back). -/
def jappend : JList → JValue → JList
  | .nil, w => .cons w .nil
  | .cons v tl, w => .cons v (jappend tl w)

/-- A list of n Null elements, as produced by std::deque::resize padding. -/
def jnulls : Nat → JList
  | 0 => .nil
  | n + 1 => .cons .null (jnulls n)

/-- Concatenation of Array payloads. -/
def jcat : JList → JList → JList
  | .nil, ys => ys
  | .cons v tl, ys => .cons v (jcat tl ys)

/-- The tag of a node (JSON::JSONType). -/
def JClassOf : JValue → JClass
  | .null => .null
  | .boolean _ => .boolean
  | .integral _ => .integral
  | .floating _ => .floating
  | .str _ => .strTag
  | .arr _ => .array
  | .obj _ => .object

/-- The freshly allocated payload installed by JSON::SetType for each target
tag (Null stores no payload, Object/Array/String get empty containers,
numbers get zero, Boolean gets false). -/
def makeDefault : JClass → JValue
  | .null => .null
  | .object => .obj .nil
  | .array => .arr .nil
  | .strTag => .str []
  | .floating => .floating 0
  | .integral => .integral 0
  | .boolean => .boolean false

/-- JSON::SetType: if the requested tag already matches, the value is kept
unchanged (early return); otherwise the old payload is discarded
(ClearInternal) and a default payload of the new tag is installed. -/
def SetType (v : JValue) (t : JClass) : JValue :=
  if JClassOf v = t then v else makeDefault t

/-- Object payload of a node; empty for any other tag (used only after
SetType Object, where the tag is guaranteed). -/
def entriesOf : JValue → JEntries
  | .obj es => es
  | _ => .nil

/-- Array payload of a node; empty for any other tag. -/
def listOf : JValue → JList
  | .arr xs => xs
  | _ => .nil

/-- JSON::operator[](const string&): SetType(Object), then map operator[],
which default-inserts Null when the key is absent.  The result is the pair
(updated container value, value currently stored in the accessed slot). -/
def subscriptKey (v : JValue) (k : List Char) : JValue × JValue :=
  let es := entriesOf (SetType v .object)
  match mapFind k es with
  | some w => (.obj es, w)
  | none => (.obj (mapInsert k .null es), .null)

/-- Writing through the reference returned by operator[](const string&):
v[k] = w. -/
def subscriptKeyAssign (v : JValue) (k : List Char) (w : JValue) : JValue :=
  .obj (mapInsert k w (entriesOf (SetType v .object)))

/-- JSON::operator[](unsigned): SetType(Array); if index >= size() the deque
is resized to index+1 (padding with default-constructed Null nodes); result is
(updated container value, value currently stored in slot index). -/
def subscriptIdx (v : JValue) (i : Nat) : JValue × JValue :=
  let xs := listOf (SetType v .array)
  let xs2 := if jlen xs ≤ i then jcat xs (jnulls (i + 1 - jlen xs)) else xs
  (.arr xs2, jget xs2 i)

/-- Writing through the reference returned by operator[](unsigned):
v[i] = w. -/
def subscriptIdxAssign (v : JValue) (i : Nat) (w : JValue) : JValue :=
  let xs := listOf (SetType v .array)
  let xs2 := if jlen xs ≤ i then jcat xs (jnulls (i + 1 - jlen xs)) else xs
  .arr (jset xs2 i w)

/-- Mutable JSON::at(const string&): the source delegates verbatim to
operator[](const string&). -/
def atMutKey (v : JValue) (k : List Char) : JValue × JValue :=
  subscriptKey v k

/-- Mutable JSON::at(unsigned): the source delegates verbatim to
operator[](unsigned). -/
def atMutIdx (v : JValue) (i : Nat) : JValue × JValue :=
  subscriptIdx v i

/-- Failure conditions of the const accessors.  keyNotFound models the
std::out_of_range thrown by std::map::at on a missing key and
indexOutOfRange the one thrown by std::deque::at; notAnObject / notAnArray
model the undefined behaviour of dereferencing the wrong union member when
the tag does not match (the const accessors perform no coercion). -/
inductive AtErr where
  | keyNotFound
  | indexOutOfRange
  | notAnObject
  | notAnArray
deriving DecidableEq

/-- Const JSON::at(const string&) const: Internal.Map->at(key).  Requires the
Object tag; a missing key raises the distinct KeyNotFound condition. -/
def atConstKey (v : JValue) (k : List Char) : Except AtErr JValue :=
  match v with
  | .obj es =>
    match mapFind k es with
    | some w => .ok w
    | none => .error .keyNotFound
  | _ => .error .notAnObject

/-- Const JSON::at(unsigned) const: Internal.List->at(index). -/
def atConstIdx (v : JValue) (i : Nat) : Except AtErr JValue :=
  match v with
  | .arr xs => if i < jlen xs then .ok (jget xs i) else .error .indexOutOfRange
  | _ => .error .notAnArray

/-- JSON(JSON&& other): the new node takes other's Internal payload and Type
tag; other is left with Type = Null (and a cleared pointer).  Result:
(constructed node, state of the moved-from node). -/
def moveConstruct (other : JValue) : JValue × JValue :=
  (other, .null)

/-- JSON::operator=(JSON&&): the target clears its own payload
(ClearInternal), then takes other's payload and tag; other is reset to Null.
Result: (state of the target, state of the moved-from node). -/
def moveAssign (_target other : JValue) : JValue × JValue :=
  (other, .null)

/-- The escaping applied on output (function json_escape in the source):
quote, backslash, backspace, form feed, newline, carriage return and tab
become two-character escapes; every other character passes through. -/
def json_escape : List Char → List Char
  | [] => []
  | c :: cs =>
    (if c = '"' then ['\\', '"']
     else if c = '\\' then ['\\', '\\']
     else if c = Char.ofNat 8 then ['\\', 'b']
     else if c = Char.ofNat 12 then ['\\', 'f']
     else if c = '\n' then ['\\', 'n']
     else if c = Char.ofNat 13 then ['\\', 'r']
     else if c = '\t' then ['\\', 't']
     else [c]) ++ json_escape cs

/-- Decimal digit character. -/
def digitChar : Nat → Char
  | 0 => '0'
  | 1 => '1'
  | 2 => '2'
  | 3 => '3'
  | 4 => '4'
  | 5 => '5'
  | 6 => '6'
  | 7 => '7'
  | 8 => '8'
  | _ => '9'

/-- Digit-emitting loop for decimal rendering; fuel-bounded so that it is
structurally recursive (fuel n+1 always suffices for n). -/
def natToCharsCore (fuel n : Nat) (acc : List Char) : List Char :=
  match fuel with
  | 0 => acc
  | fuel + 1 =>
    if n < 10 then digitChar n :: acc
    else natToCharsCore fuel (n / 10) (digitChar (n % 10) :: acc)

/-- Decimal rendering of a natural number (most significant digit first). -/
def natToChars (n : Nat) : List Char :=
  natToCharsCore (n + 1) n []

/-- std::to_string(long long): minus sign for negatives, then the decimal
digits. -/
def intToChars (i : Int) : List Char :=
  if i < 0 then '-' :: natToChars i.natAbs else natToChars i.natAbs

/-- Left-pad with zeros to a given width. -/
def padZeros (w : Nat) (ds : List Char) : List Char :=
  List.replicate (w - ds.length) '0' ++ ds

/-- Models std::to_string(double) ("%f" formatting: six digits after the
decimal point).  The double payload is an exact rational; its value is
rounded to six decimal places, half away from zero.  No settled claim
depends on this rendering (Floating nodes are excluded by the amended
round-trip statements). -/
def ratToString6 (q : Rat) : List Char :=
  let x : Rat := if q < 0 then -q else q
  let scaled : Nat := (Rat.floor (x * 1000000 + 1 / 2)).toNat
  (if q < 0 then ['-'] else []) ++
    natToChars (scaled / 1000000) ++ '.' :: padZeros 6 (natToChars (scaled % 1000000))

mutual
/-- JSON::dumpMinified: the minified serializer.  Objects iterate in
ascending key order (std::map iteration); object keys are emitted raw, not
escaped (the source concatenates p.first directly). -/
def dumpMinified : JValue → List Char
  | .null => ['n', 'u', 'l', 'l']
  | .boolean b => if b then ['t', 'r', 'u', 'e'] else ['f', 'a', 'l', 's', 'e']
  | .integral n => intToChars n
  | .floating q => ratToString6 q
  | .str s => '"' :: (json_escape s ++ ['"'])
  | .arr xs => '[' :: (dumpList xs ++ [']'])
  | .obj es => '{' :: (dumpEntries es ++ ['}'])
/-- Comma-separated minified dump of the elements of an Array payload. -/
def dumpList : JList → List Char
  | .nil => []
  | .cons v .nil => dumpMinified v
  | .cons v (JList.cons w tl) => dumpMinified v ++ ',' :: dumpList (JList.cons w tl)
/-- Comma-separated minified dump of the entries of an Object payload:
"key":value with the key emitted raw. -/
def dumpEntries : JEntries → List Char
  | .nil => []
  | .cons k v .nil => '"' :: (k ++ '"' :: ':' :: dumpMinified v)
  | .cons k v (JEntries.cons k2 w tl) =>
    ('"' :: (k ++ '"' :: ':' :: dumpMinified v)) ++ ',' :: dumpEntries (JEntries.cons k2 w tl)
end

/-- JSON::ToString(bool&): String payload escaped; Object/Array rendered via
dumpMinified; Boolean as true/false; numbers via std::to_string; Null as
"null".  Every tag is handled, so the flag is always true (the trailing
return "" of the source is unreachable). -/
def toStringOk : JValue → List Char × Bool
  | .str s => (json_escape s, true)
  | .obj es => (dumpMinified (.obj es), true)
  | .arr xs => (dumpMinified (.arr xs), true)
  | .boolean b => (if b then ['t', 'r', 'u', 'e'] else ['f', 'a', 'l', 's', 'e'], true)
  | .floating q => (ratToString6 q, true)
  | .integral n => (intToChars n, true)
  | .null => (['n', 'u', 'l', 'l'], true)

/-- Decimal digit test ('0' <= c <= '9'). -/
def isDigitC (c : Char) : Bool :=
  '0' ≤ c && c ≤ '9'

/-- Numeric value of a digit character. -/
def digitVal (c : Char) : Nat :=
  c.toNat - 48

/-- Value of a big-endian digit string. -/
def digitsVal (ds : List Char) : Nat :=
  ds.foldl (fun a c => 10 * a + digitVal c) 0

/-- Longest digit prefix of a character list together with the rest. -/
def spanDigits : List Char → List Char × List Char
  | [] => ([], [])
  | c :: cs =>
    if isDigitC c then
      let r := spanDigits cs
      (c :: r.1, r.2)
    else ([], c :: cs)

/-- std::from_chars for integers (as used by ToInt and ToBool on String
payloads): no whitespace skipping, an optional leading minus (no plus), then
at least one decimal digit; parses the longest digit prefix and ignores any
trailing characters.  none models the error code set when no digit is
found. -/
def fromCharsInt (s : List Char) : Option Int :=
  match s with
  | '-' :: rest =>
    let r := spanDigits rest
    if r.1 = [] then none else some (-(digitsVal r.1 : Int))
  | _ =>
    let r := spanDigits s
    if r.1 = [] then none else some (digitsVal r.1 : Int)

/-- Truncation of a rational toward zero: the double -> long long conversion
applied by ToInt on a Floating payload. -/
def ratTrunc (q : Rat) : Int :=
  if q < 0 then -Rat.floor (-q) else Rat.floor q

/-- JSON::ToInt(bool&): Integral verbatim; Boolean as 0/1; Floating truncated
toward zero; String through std::from_chars (0 and failure when no digits);
all other tags give 0 with failure. -/
def toIntOk : JValue → Int × Bool
  | .integral n => (n, true)
  | .boolean b => (if b then 1 else 0, true)
  | .floating q => (ratTrunc q, true)
  | .str s =>
    match fromCharsInt s with
    | some n => (n, true)
    | none => (0, false)
  | _ => (0, false)

/-- Leading-match test used by the substring search. -/
def startsWithChars : List Char → List Char → Bool
  | [], _ => true
  | _ :: _, [] => false
  | p :: ps, c :: cs => p = c && startsWithChars ps cs

/-- Substring search (std::string::find != npos). -/
def containsChars (pat : List Char) : List Char → Bool
  | [] => startsWithChars pat []
  | c :: cs => startsWithChars pat (c :: cs) || containsChars pat cs

/-- JSON::ToBool(bool&): Boolean verbatim; Integral/Floating as a nonzero
test; String by substring search for "true" then "false", then a
std::from_chars integer parse treated as a nonzero test; otherwise false with
failure. -/
def toBoolOk : JValue → Bool × Bool
  | .boolean b => (b, true)
  | .integral n => (decide (n ≠ 0), true)
  | .floating q => (decide (q ≠ 0), true)
  | .str s =>
    if containsChars ['t', 'r', 'u', 'e'] s then (true, true)
    else if containsChars ['f', 'a', 'l', 's', 'e'] s then (false, true)
    else
      match fromCharsInt s with
      | some n => (decide (n ≠ 0), true)
      | none => (false, false)
  | _ => (false, false)

/-- Outcome of a step of the parser model.  done is a normal return; oob
marks an attempted read of the input at an offset strictly beyond the string
size (undefined behaviour in the C++ source); exc marks an uncaught C++
exception (std::stol / std::stod on a conversion failure, std::string::substr
past the end); out means the model fuel ran out (never asserted by any
theorem). -/
inductive POut (α : Type) where
  | done : α → POut α
  | oob : POut α
  | exc : POut α
  | out : POut α

/-- Sequencing that propagates the failure outcomes. -/
def pbind : POut α → (α → POut β) → POut β
  | .done a, g => g a
  | .oob, _ => .oob
  | .exc, _ => .exc
  | .out, _ => .out

/-- Reading str[i] on a const std::string: the stored character for
i < size(), the terminator '\0' for i == size(), undefined behaviour (none)
beyond. -/
def getC : List Char → Nat → Option Char
  | [], 0 => some (Char.ofNat 0)
  | [], _ + 1 => none
  | c :: _, 0 => some c
  | _ :: t, i + 1 => getC t i

/-- Lifting getC into the parser outcome (none becomes oob). -/
def readC (s : List Char) (i : Nat) : POut Char :=
  match getC s i with
  | some c => .done c
  | none => .oob

/-- The character class accepted by isspace in the "C" locale: space, tab,
newline, vertical tab, form feed, carriage return. -/
def isspaceC (c : Char) : Bool :=
  c = ' ' || c = '\t' || c = '\n' || c = Char.ofNat 11 || c = Char.ofNat 12 || c = Char.ofNat 13

/-- std::stol: optional leading whitespace, an optional sign, then at least
one decimal digit (longest prefix); none models the std::invalid_argument
thrown when no digit is found.  The long range is modelled as unbounded (no
call settled below gets near 64-bit overflow). -/
def stolModel (s : List Char) : Option Int :=
  match s.dropWhile (fun c => isspaceC c) with
  | [] => none
  | c :: rest =>
    if c = '-' then
      let r := spanDigits rest
      if r.1 = [] then none else some (-(digitsVal r.1 : Int))
    else if c = '+' then
      let r := spanDigits rest
      if r.1 = [] then none else some (digitsVal r.1 : Int)
    else
      let r := spanDigits (c :: rest)
      if r.1 = [] then none else some (digitsVal r.1 : Int)

/-- Exact rational value of sign, integer digits and fraction digits. -/
def decimalVal (neg : Bool) (ip fp : List Char) : Rat :=
  let m : Rat := (digitsVal ip : Rat) + (digitsVal fp : Rat) / ((10 : Rat) ^ fp.length)
  if neg then -m else m

/-- std::stod restricted to the character set reachable here (digits, minus
signs and dots, as collected by the parse_number loop): optional sign, then
digits with an optional single fractional part; at least one digit overall;
trailing characters ignored.  none models std::invalid_argument.  The value
is kept as an exact rational (doubles are modelled as rationals). -/
def stodModel (s : List Char) : Option Rat :=
  let (neg, s1) :=
    match s with
    | '-' :: rest => (true, rest)
    | '+' :: rest => (false, rest)
    | _ => (false, s)
  let ri := spanDigits s1
  match ri.2 with
  | '.' :: rest2 =>
    let rf := spanDigits rest2
    if ri.1 = [] ∧ rf.1 = [] then none else some (decimalVal neg ri.1 rf.1)
  | _ => if ri.1 = [] then none else some (decimalVal neg ri.1 [])

/-- std::pow(10, e) for an integer exponent, as an exact rational. -/
def powTen (e : Int) : Rat :=
  if 0 ≤ e then ((10 : Rat) ^ e.toNat) else 1 / ((10 : Rat) ^ (-e).toNat)

/-- std::string::substr(off, n): throws std::out_of_range when off > size();
otherwise yields up to n characters starting at off. -/
def substrModel (s : List Char) (off n : Nat) : POut (List Char) :=
  if off ≤ s.length then .done ((s.drop off).take n) else .exc

/-- Hexadecimal digit test used by the "\u" escape scanner. -/
def isHexC (c : Char) : Bool :=
  ('0' ≤ c && c ≤ '9') || ('a' ≤ c && c ≤ 'f') || ('A' ≤ c && c ≤ 'F')

/-- consume_ws: advance the cursor over isspace characters. -/
def consume_ws (s : List Char) (off : Nat) : Nat → POut Nat
  | 0 => .out
  | fuel + 1 =>
    pbind (readC s off) fun c =>
    if isspaceC c then consume_ws s (off + 1) fuel else .done off

/-- The scanning loop of parse_string.  The parameter p is the next offset to
read (the C++ loop reads str[++offset], so p plays the role of offset + 1).
Accumulates the unescaped payload; "\uXXXX" is kept as the literal
six-character sequence; a non-hex character inside "\u" returns an empty
String value with the failure flag set; an unknown escape keeps only the
backslash. -/
def parse_string_loop (s : List Char) (p : Nat) (acc : List Char) (ok : Bool) :
    Nat → POut (JValue × Nat × Bool)
  | 0 => .out
  | fuel + 1 =>
    pbind (readC s p) fun c =>
    if c = '"' then .done (.str acc, p + 1, ok)
    else if c = '\\' then
      pbind (readC s (p + 1)) fun e =>
      if e = '"' then parse_string_loop s (p + 2) (acc ++ ['"']) ok fuel
      else if e = '\\' then parse_string_loop s (p + 2) (acc ++ ['\\']) ok fuel
      else if e = '/' then parse_string_loop s (p + 2) (acc ++ ['/']) ok fuel
      else if e = 'b' then parse_string_loop s (p + 2) (acc ++ [Char.ofNat 8]) ok fuel
      else if e = 'f' then parse_string_loop s (p + 2) (acc ++ [Char.ofNat 12]) ok fuel
      else if e = 'n' then parse_string_loop s (p + 2) (acc ++ ['\n']) ok fuel
      else if e = 'r' then parse_string_loop s (p + 2) (acc ++ [Char.ofNat 13]) ok fuel
      else if e = 't' then parse_string_loop s (p + 2) (acc ++ ['\t']) ok fuel
      else if e = 'u' then
        pbind (readC s (p + 2)) fun h1 =>
        if isHexC h1 then
          pbind (readC s (p + 3)) fun h2 =>
          if isHexC h2 then
            pbind (readC s (p + 4)) fun h3 =>
            if isHexC h3 then
              pbind (readC s (p + 5)) fun h4 =>
              if isHexC h4 then
                parse_string_loop s (p + 6) (acc ++ ['\\', 'u', h1, h2, h3, h4]) ok fuel
              else .done (.str [], p + 1, false)
            else .done (.str [], p + 1, false)
          else .done (.str [], p + 1, false)
        else .done (.str [], p + 1, false)
      else parse_string_loop s (p + 2) (acc ++ ['\\']) ok fuel
    else parse_string_loop s (p + 1) (acc ++ [c]) ok fuel

/-- parse_string: called with the cursor on the opening quote; the loop reads
from the next position on. -/
def parse_string (s : List Char) (off : Nat) (ok : Bool) :
    Nat → POut (JValue × Nat × Bool)
  | 0 => .out
  | fuel + 1 => parse_string_loop s (off + 1) [] ok fuel

/-- The first scanning loop of parse_number: c = str[offset++]; minus signs
and digits are appended to val, a dot is appended and flags isDouble; any
other character stops the loop.  Returns (stopping character, offset after
its post-increment, accumulated val, isDouble flag). -/
def parse_number_loop (s : List Char) (off : Nat) (acc : List Char) (isD : Bool) :
    Nat → POut (Char × Nat × List Char × Bool)
  | 0 => .out
  | fuel + 1 =>
    pbind (readC s off) fun c =>
    if c = '-' || isDigitC c then parse_number_loop s (off + 1) (acc ++ [c]) isD fuel
    else if c = '.' then parse_number_loop s (off + 1) (acc ++ [c]) true fuel
    else .done (c, off + 1, acc, isD)

/-- Outcome of the exponent-digits loop of parse_number. -/
inductive ExpOut where
  | fin : Char → Nat → List Char → ExpOut
  | bad : Nat → ExpOut

/-- The exponent-digits loop of parse_number: digits are appended to exp_str;
a character that is neither a digit, whitespace, ',', ']' nor '}' is a parse
error (bad); otherwise the loop stops. -/
def parse_exp_loop (s : List Char) (off : Nat) (acc : List Char) :
    Nat → POut ExpOut
  | 0 => .out
  | fuel + 1 =>
    pbind (readC s off) fun c =>
    if isDigitC c then parse_exp_loop s (off + 1) (acc ++ [c]) fuel
    else if ¬ isspaceC c ∧ c ≠ ',' ∧ c ≠ ']' ∧ c ≠ '}' then .done (.bad (off + 1))
    else .done (.fin c (off + 1) acc)

/-- parse_number: scan mantissa characters, optionally an exponent part, then
require the stopping character to be whitespace, ',', ']' or '}' (note that
the terminator '\0' read at end of input fails this test); finally step the
cursor back one position and build the value: a Floating when a dot was seen
or an exponent was given (computed through double arithmetic in the source,
exact rationals here), an Integral via std::stol otherwise. -/
def parse_number (s : List Char) (off : Nat) (ok : Bool) :
    Nat → POut (JValue × Nat × Bool)
  | 0 => .out
  | fuel + 1 =>
    pbind (parse_number_loop s off [] false fuel) fun r =>
    let c := r.1
    let off1 := r.2.1
    let val := r.2.2.1
    let isD := r.2.2.2
    if c = 'E' || c = 'e' then
      pbind (readC s off1) fun c2 =>
      let start := if c2 = '-' then (off1 + 1, ['-']) else if c2 = '+' then (off1 + 1, ([] : List Char)) else (off1, [])
      pbind (parse_exp_loop s start.1 start.2 fuel) fun er =>
      match er with
      | .bad off2 => .done (.null, off2, false)
      | .fin _ off2 expStr =>
        match stolModel expStr with
        | none => .exc
        | some e =>
          if isD then
            match stodModel val with
            | none => .exc
            | some m => .done (.floating (m * powTen e), off2 - 1, ok)
          else
            match stolModel val with
            | none => .exc
            | some m => .done (.floating ((m : Rat) * powTen e), off2 - 1, ok)
    else if ¬ isspaceC c ∧ c ≠ ',' ∧ c ≠ ']' ∧ c ≠ '}' then .done (.null, off1, false)
    else
      if isD then
        match stodModel val with
        | none => .exc
        | some m => .done (.floating m, off1 - 1, ok)
      else
        match stolModel val with
        | none => .exc
        | some m => .done (.integral m, off1 - 1, ok)

/-- parse_bool: compare the next four (resp. five) characters with "true"
(resp. "false") via substr; on a match the cursor advances by the literal
length, otherwise the failure flag is set and Null is returned. -/
def parse_bool (s : List Char) (off : Nat) (ok : Bool) : POut (JValue × Nat × Bool) :=
  pbind (substrModel s off 4) fun t4 =>
  if t4 = ['t', 'r', 'u', 'e'] then .done (.boolean true, off + 4, ok)
  else
    pbind (substrModel s off 5) fun t5 =>
    if t5 = ['f', 'a', 'l', 's', 'e'] then .done (.boolean false, off + 5, ok)
    else .done (.null, off, false)

/-- parse_null: compare the next four characters with "null" via substr. -/
def parse_null (s : List Char) (off : Nat) (ok : Bool) : POut (JValue × Nat × Bool) :=
  pbind (substrModel s off 4) fun t4 =>
  if t4 = ['n', 'u', 'l', 'l'] then .done (.null, off + 4, ok)
  else .done (.null, off, false)

mutual
/-- parse_next: skip whitespace, dispatch on the leading character; an
unrecognized character sets the failure flag and yields Null. -/
def parse_next (s : List Char) (off : Nat) (ok : Bool) (fl : Nat) :
    POut (JValue × Nat × Bool) :=
  match fl with
  | 0 => .out
  | fuel + 1 =>
    pbind (consume_ws s off fuel) fun off1 =>
    pbind (readC s off1) fun c =>
    if c = '[' then parse_array s off1 ok fuel
    else if c = '{' then parse_object s off1 ok fuel
    else if c = '"' then parse_string s off1 ok fuel
    else if c = 't' || c = 'f' then parse_bool s off1 ok
    else if c = 'n' then parse_null s off1 ok
    else if (c ≤ '9' && '0' ≤ c) || c = '-' then parse_number s off1 ok fuel
    else .done (.null, off1, false)
termination_by structural fl

/-- parse_object: step over '{', skip whitespace; '}' closes an empty
object, anything else enters the key/value loop. -/
def parse_object (s : List Char) (off : Nat) (ok : Bool) (fl : Nat) :
    POut (JValue × Nat × Bool) :=
  match fl with
  | 0 => .out
  | fuel + 1 =>
    pbind (consume_ws s (off + 1) fuel) fun off1 =>
    pbind (readC s off1) fun c =>
    if c = '}' then .done (.obj .nil, off1 + 1, ok)
    else parse_object_loop s off1 ok .nil fuel
termination_by structural fl

/-- The key/value loop of parse_object: parse a key (an arbitrary value whose
ToString rendering becomes the map key), require ':', parse the value, store
it with Object[Key.ToString()] = Value (last write wins on duplicate keys),
then continue on ',' or close on '}'; anything else sets the failure flag and
returns the object built so far. -/
def parse_object_loop (s : List Char) (off : Nat) (ok : Bool) (acc : JEntries) (fl : Nat) :
    POut (JValue × Nat × Bool) :=
  match fl with
  | 0 => .out
  | fuel + 1 =>
    pbind (parse_next s off ok fuel) fun kr =>
    pbind (consume_ws s kr.2.1 fuel) fun off2 =>
    pbind (readC s off2) fun c =>
    if c ≠ ':' then .done (.obj acc, off2, false)
    else
      pbind (consume_ws s (off2 + 1) fuel) fun off3 =>
      pbind (parse_next s off3 kr.2.2 fuel) fun vr =>
      let acc2 := mapInsert (toStringOk kr.1).1 vr.1 acc
      pbind (consume_ws s vr.2.1 fuel) fun off5 =>
      pbind (readC s off5) fun c2 =>
      if c2 = ',' then parse_object_loop s (off5 + 1) vr.2.2 acc2 fuel
      else if c2 = '}' then .done (.obj acc2, off5 + 1, vr.2.2)
      else .done (.obj acc2, off5, false)
termination_by structural fl

/-- parse_array: step over '[', skip whitespace; ']' closes an empty array,
anything else enters the element loop. -/
def parse_array (s : List Char) (off : Nat) (ok : Bool) (fl : Nat) :
    POut (JValue × Nat × Bool) :=
  match fl with
  | 0 => .out
  | fuel + 1 =>
    pbind (consume_ws s (off + 1) fuel) fun off1 =>
    pbind (readC s off1) fun c =>
    if c = ']' then .done (.arr .nil, off1 + 1, ok)
    else parse_array_loop s off1 ok .nil fuel
termination_by structural fl

/-- The element loop of parse_array: parse an element into the next index,
then continue on ',' or close on ']'; anything else sets the failure flag and
returns a fresh empty Array (discarding the elements parsed so far). -/
def parse_array_loop (s : List Char) (off : Nat) (ok : Bool) (acc : JList) (fl : Nat) :
    POut (JValue × Nat × Bool) :=
  match fl with
  | 0 => .out
  | fuel + 1 =>
    pbind (parse_next s off ok fuel) fun vr =>
    let acc2 := jappend acc vr.1
    pbind (consume_ws s vr.2.1 fuel) fun off2 =>
    pbind (readC s off2) fun c =>
    if c = ',' then parse_array_loop s (off2 + 1) vr.2.2 acc2 fuel
    else if c = ']' then .done (.arr acc2, off2 + 1, vr.2.2)
    else .done (.arr .nil, off2, false)
termination_by structural fl
end

/-- JSON::Load(const string&, bool&): cursor at 0, flag initialized to true,
one parse_next call; trailing input after the first complete value is
ignored.  Result: (parsed value, success flag). -/
def JSONLoad (s : List Char) (fuel : Nat) : POut (JValue × Bool) :=
  pbind (parse_next s 0 true fuel) fun r => .done (r.1, r.2.2)

/-- Success flag of a Load outcome (false for the non-done outcomes). -/
def flagOf : POut (JValue × Bool) → Bool
  | .done r => r.2
  | _ => false

/-- dumpMinified applied to the value produced by Load (the composition whose
idempotence the specification asserts). -/
def loadThenDump (s : List Char) (fuel : Nat) : List Char :=
  match JSONLoad s fuel with
  | .done r => dumpMinified r.1
  | _ => []

/-- Evaluation of the accessor chain value[k1][k2]: the outer subscript
returns a reference to the slot of k1, the inner subscript mutates the node
held in that slot (possibly retagging it), and the mutation lands back in the
outer container through the reference. -/
def touchKey2 (v : JValue) (k1 k2 : List Char) : JValue :=
  let r1 := subscriptKey v k1
  let r2 := subscriptKey r1.2 k2
  .obj (mapInsert k1 r2.1 (entriesOf r1.1))

/-- Concatenation of Object payload entry lists. -/
def ecat : JEntries → JEntries → JEntries
  | .nil, b => b
  | .cons k v tl, b => .cons k v (ecat tl b)

/-- Key membership in an Object payload. -/
def keyMem (k : List Char) : JEntries → Prop
  | .nil => False
  | .cons k0 _ tl => k = k0 ∨ keyMem k tl

/-- Every key of the first payload is strictly below every key of the
second (loop invariant of the object round-trip proof). -/
def entsBelowAll (a b : JEntries) : Prop :=
  ∀ k1 k2, keyMem k1 a → keyMem k2 b → keyLt k1 k2 = true

/-- The escape table of json_escape: the characters rewritten on output,
together with the letter they are escaped to. -/
def escCode (c : Char) : Option Char :=
  if c = '"' then some '"'
  else if c = '\\' then some '\\'
  else if c = Char.ofNat 8 then some 'b'
  else if c = Char.ofNat 12 then some 'f'
  else if c = '\n' then some 'n'
  else if c = Char.ofNat 13 then some 'r'
  else if c = '\t' then some 't'
  else none

/-- A key is serialization-safe when none of its characters is rewritten by
json_escape: dumpMinified emits object keys raw while parsed keys pass
through ToString (which escapes), so exactly such keys survive a round trip
unchanged. -/
def safeKey (k : List Char) : Bool :=
  k.all fun c => (escCode c).isNone

/-- keysAbove k es: k is strictly below every key of es (ascending std::map
order). -/
def keysAbove (k : List Char) : JEntries → Bool
  | .nil => true
  | .cons k2 _ tl => keyLt k k2 && keysAbove k tl

mutual
/-- Round-trip-safe values: no Floating node (std::to_string's fixed
six-decimal rendering does not round-trip doubles), object keys
serialization-safe, and object entry lists strictly ascending (the invariant
every std::map-backed value satisfies by construction). -/
def rtSafeV : JValue → Bool
  | .null => true
  | .boolean _ => true
  | .integral _ => true
  | .floating _ => false
  | .str _ => true
  | .arr xs => rtSafeL xs
  | .obj es => rtSafeE es
/-- Round-trip safety of Array payloads. -/
def rtSafeL : JList → Bool
  | .nil => true
  | .cons v tl => rtSafeV v && rtSafeL tl
/-- Round-trip safety of Object payloads. -/
def rtSafeE : JEntries → Bool
  | .nil => true
  | .cons k v tl => safeKey k && rtSafeV v && keysAbove k tl && rtSafeE tl
end

mutual
/-- A fuel amount sufficient for the parser to consume the serialized form
of a value (each parser step burns at most one unit per recursion level,
loop iteration or scanned character). -/
def needV : JValue → Nat
  | .null => 8
  | .boolean _ => 8
  | .integral n => 8 + (intToChars n).length
  | .floating _ => 8
  | .str s => 8 + s.length
  | .arr xs => 8 + needL xs
  | .obj es => 8 + needE es
/-- Fuel bound for the element loop of parse_array. -/
def needL : JList → Nat
  | .nil => 1
  | .cons v tl => 8 + needV v + needL tl
/-- Fuel bound for the key/value loop of parse_object. -/
def needE : JEntries → Nat
  | .nil => 1
  | .cons k v tl => 8 + k.length + needV v + needE tl
end

/-- Shape the remaining input must have right after a serialized number:
parse_number insists that the character after the digits is whitespace, ',',
']' or '}', and inside a serialized composite the next character is always
one of the latter three. -/
def restTerm (rest : List Char) : Prop :=
  ∃ t r2, rest = t :: r2 ∧ (t = ',' ∨ t = ']' ∨ t = '}')

/- ------------------------------------------------------------------ -/
/- Helper lemmas                                                      -/
/- ------------------------------------------------------------------ -/

theorem keyLt_irrefl (a : List Char) : keyLt a a = false := by
  induction a with
  | nil => rfl
  | cons c cs ih => simp [keyLt, ih]

theorem mapFind_mapInsert_self (es : JEntries) (k : List Char) (v : JValue) :
    mapFind k (mapInsert k v es) = some v := by
  cases es with
  | nil => simp [mapInsert, mapFind]
  | cons k0 v0 tl =>
    by_cases hk : k = k0
    · subst hk
      simp [mapInsert, keyLt_irrefl, mapFind]
    · simp only [mapInsert]
      by_cases h1 : keyLt k k0 = true
      · simp [h1, mapFind]
      · simp only [h1]
        by_cases h2 : keyLt k0 k = true
        · simp [h2, mapFind, hk, mapFind_mapInsert_self tl k v]
        · simp [h1, h2, mapFind]

theorem jget_jnulls (n i : Nat) (h : i < n) : jget (jnulls n) i = JValue.null := by
  induction n generalizing i with
  | zero => omega
  | succ m ih =>
    cases i with
    | zero => rfl
    | succ j => simpa [jnulls, jget] using ih j (by omega)

theorem jlen_jcat (xs ys : JList) : jlen (jcat xs ys) = jlen xs + jlen ys := by
  cases xs with
  | nil => simp [jcat, jlen]
  | cons v tl => simp [jcat, jlen, jlen_jcat tl ys]; omega

theorem jlen_jnulls (n : Nat) : jlen (jnulls n) = n := by
  induction n with
  | zero => rfl
  | succ m ih => simp [jnulls, jlen, ih]

theorem jget_jcat_right (xs ys : JList) (j : Nat) :
    jget (jcat xs ys) (jlen xs + j) = jget ys j := by
  cases xs with
  | nil => simp [jcat, jlen]
  | cons v tl =>
    have h1 : jlen (JList.cons v tl) + j = (jlen tl + j) + 1 := by simp [jlen]; omega
    simp [jcat, h1, jget, jget_jcat_right tl ys j]

theorem pbind_done (a : α) (g : α → POut β) : pbind (POut.done a) g = g a := rfl

theorem getC_append (pre tail : List Char) (i : Nat) :
    getC (pre ++ tail) (pre.length + i) = getC tail i := by
  induction pre with
  | nil => simp [getC]
  | cons c cs ih =>
    have h1 : (c :: cs).length + i = (cs.length + i) + 1 := by
      simp [List.length_cons]; omega
    rw [h1]
    simpa [getC] using ih

theorem getC_at0 (pre t : List Char) (c : Char) :
    getC (pre ++ c :: t) pre.length = some c := by
  have := getC_append pre (c :: t) 0
  simpa [getC] using this

theorem readC_of_getC (s : List Char) (i : Nat) (c : Char) (h : getC s i = some c) :
    readC s i = POut.done c := by
  simp [readC, h]

theorem consume_ws_done (s : List Char) (off : Nat) (c : Char) (fl : Nat)
    (h : getC s off = some c) (hc : isspaceC c = false) (hf : 1 ≤ fl) :
    consume_ws s off fl = POut.done off := by
  cases fl with
  | zero => omega
  | succ g => simp [consume_ws, readC, h, hc, pbind]

theorem digitChar_digit (d : Nat) : isDigitC (digitChar d) = true := by
  rcases d with _ | _ | _ | _ | _ | _ | _ | _ | _ | d <;> rfl

theorem digitVal_digitChar (d : Nat) (h : d < 10) : digitVal (digitChar d) = d := by
  interval_cases d <;> rfl

theorem isDigit_bounds (c : Char) (h : isDigitC c = true) : '0' ≤ c ∧ c ≤ '9' := by
  simpa [isDigitC] using h

theorem isDigit_not_space (c : Char) (h : isDigitC c = true) : isspaceC c = false := by
  obtain ⟨h1, h2⟩ := isDigit_bounds c h
  simp only [isspaceC, Bool.or_eq_false_iff, decide_eq_false_iff_not]
  refine ⟨⟨⟨⟨⟨?_, ?_⟩, ?_⟩, ?_⟩, ?_⟩, ?_⟩ <;> rintro rfl <;> revert h1 h2 <;> decide

theorem isDigit_ne (c : Char) (h : isDigitC c = true) :
    c ≠ ']' ∧ c ≠ '}' ∧ c ≠ ',' ∧ c ≠ ':' ∧ c ≠ '"' ∧ c ≠ '-' ∧ c ≠ 'E' ∧ c ≠ 'e' ∧
    c ≠ '.' ∧ c ≠ '[' ∧ c ≠ '\x7b' ∧ c ≠ 't' ∧ c ≠ 'f' ∧ c ≠ 'n' := by
  obtain ⟨h1, h2⟩ := isDigit_bounds c h
  refine ⟨?_, ?_, ?_, ?_, ?_, ?_, ?_, ?_, ?_, ?_, ?_, ?_, ?_, ?_⟩ <;> rintro rfl <;>
    revert h1 h2 <;> decide

theorem natToCharsCore_shift (n : Nat) :
    ∀ fl acc, n < fl → natToCharsCore fl n acc = natToChars n ++ acc := by
  induction n using Nat.strong_induction_on with
  | _ n ih =>
    intro fl acc hfl
    cases fl with
    | zero => omega
    | succ g =>
      by_cases h10 : n < 10
      · simp [natToCharsCore, natToChars, h10]
      · have hd1 : n / 10 < n := Nat.div_lt_self (by omega) (by omega)
        have hd2 : n / 10 * 10 ≤ n := Nat.div_mul_le_self n 10
        have hg : n / 10 < g := by omega
        simp only [natToCharsCore, h10, if_false, natToChars]
        rw [ih (n / 10) hd1 g _ hg, ih (n / 10) hd1 n _ (by omega)]
        simp

theorem natToChars_split (n : Nat) (h : ¬ n < 10) :
    natToChars n = natToChars (n / 10) ++ [digitChar (n % 10)] := by
  have hd1 : n / 10 < n := Nat.div_lt_self (by omega) (by omega)
  show natToCharsCore (n + 1) n [] = _
  cases hn : n + 1 with
  | zero => omega
  | succ g =>
    have hng : n < 10 ∨ n / 10 < g := by
      right
      have := Nat.div_mul_le_self n 10
      omega
    simp only [natToCharsCore, h, if_false]
    have hg : n / 10 < g := by
      have := Nat.div_mul_le_self n 10
      omega
    rw [natToCharsCore_shift (n / 10) g _ hg]

theorem natToChars_digits (n : Nat) :
    (natToChars n).all isDigitC = true ∧ natToChars n ≠ [] := by
  induction n using Nat.strong_induction_on with
  | _ n ih =>
    by_cases h10 : n < 10
    · constructor
      · simp [natToChars, natToCharsCore, h10, List.all_cons, digitChar_digit]
      · simp [natToChars, natToCharsCore, h10]
    · have hd1 : n / 10 < n := Nat.div_lt_self (by omega) (by omega)
      obtain ⟨ha, hne⟩ := ih (n / 10) hd1
      rw [natToChars_split n h10]
      constructor
      · simp [List.all_append, ha, digitChar_digit]
      · simp

theorem digitsVal_append_one (L : List Char) (c : Char) :
    digitsVal (L ++ [c]) = 10 * digitsVal L + digitVal c := by
  simp [digitsVal, List.foldl_append]

theorem natToChars_val (n : Nat) : digitsVal (natToChars n) = n := by
  induction n using Nat.strong_induction_on with
  | _ n ih =>
    by_cases h10 : n < 10
    · simp [natToChars, natToCharsCore, h10, digitsVal, digitVal_digitChar n h10]
    · have hd1 : n / 10 < n := Nat.div_lt_self (by omega) (by omega)
      rw [natToChars_split n h10, digitsVal_append_one, ih (n / 10) hd1,
        digitVal_digitChar (n % 10) (by omega)]
      omega

theorem spanDigits_all (L : List Char) (h : L.all isDigitC = true) :
    spanDigits L = (L, []) := by
  induction L with
  | nil => rfl
  | cons c cs ih =>
    simp only [List.all_cons, Bool.and_eq_true] at h
    simp [spanDigits, h.1, ih h.2]

theorem dropWhile_not_head {p : Char → Bool} (c : Char) (cs : List Char)
    (h : p c = false) : (c :: cs).dropWhile p = c :: cs := by
  simp [List.dropWhile, h]

theorem isDigit_ne_plus (c : Char) (h : isDigitC c = true) : c ≠ '+' := by
  obtain ⟨h1, h2⟩ := isDigit_bounds c h
  rintro rfl
  revert h1
  decide

theorem intToChars_accepted (i : Int) :
    (intToChars i).all (fun c => c = '-' || isDigitC c) = true := by
  have hw : ∀ m : Nat, (natToChars m).all (fun c => c = '-' || isDigitC c) = true := by
    intro m
    have := (natToChars_digits m).1
    simp only [List.all_eq_true] at this ⊢
    intro c hc
    simp [this c hc]
  unfold intToChars
  by_cases hneg : i < 0
  · simp [hneg, List.all_cons, hw]
  · simp [hneg, hw]

theorem stolModel_natToChars (m : Nat) : stolModel (natToChars m) = some (m : Int) := by
  obtain ⟨hall, hne⟩ := natToChars_digits m
  cases hnc : natToChars m with
  | nil => exact absurd hnc hne
  | cons c cs =>
    rw [hnc] at hall
    simp only [List.all_cons, Bool.and_eq_true] at hall
    have hd := hall.1
    have hsp := spanDigits_all (c :: cs) (by simp [List.all_cons, hall.1, hall.2])
    have hval : digitsVal (c :: cs) = m := by
      have := natToChars_val m
      rw [hnc] at this
      exact this
    have hne1 : c ≠ '-' := (isDigit_ne c hd).2.2.2.2.2.1
    have hne2 : c ≠ '+' := isDigit_ne_plus c hd
    simp [stolModel, dropWhile_not_head c cs (isDigit_not_space c hd), hne1, hne2, hsp, hval]

theorem stolModel_intToChars (i : Int) : stolModel (intToChars i) = some i := by
  by_cases hneg : i < 0
  · have hds := natToChars_digits i.natAbs
    obtain ⟨hall, hne⟩ := hds
    have hsp : spanDigits (natToChars i.natAbs) = (natToChars i.natAbs, []) :=
      spanDigits_all _ hall
    have hval := natToChars_val i.natAbs
    have habs : ((i.natAbs : Int)) = -i := by omega
    simp only [intToChars, hneg, if_true, stolModel]
    rw [dropWhile_not_head (p := fun c => isspaceC c) '-' _ (by decide)]
    simp [hsp, hne, hval, habs]
  · have habs : ((i.natAbs : Int)) = i := by omega
    simp only [intToChars, hneg, if_false]
    rw [stolModel_natToChars]
    simp [habs]

theorem json_escape_cons (c : Char) (cs : List Char) :
    json_escape (c :: cs) =
      (match escCode c with
       | some e => ['\\', e]
       | none => [c]) ++ json_escape cs := by
  simp only [json_escape, escCode]
  split_ifs <;> rfl

theorem escCode_none_ne (c : Char) (h : escCode c = none) : c ≠ '"' ∧ c ≠ '\\' := by
  constructor <;> rintro rfl <;> simp [escCode] at h

theorem escCode_cases (c e : Char) (h : escCode c = some e) :
    (c = '"' ∧ e = '"') ∨ (c = '\\' ∧ e = '\\') ∨ (c = Char.ofNat 8 ∧ e = 'b') ∨
    (c = Char.ofNat 12 ∧ e = 'f') ∨ (c = '\n' ∧ e = 'n') ∨
    (c = Char.ofNat 13 ∧ e = 'r') ∨ (c = '\t' ∧ e = 't') := by
  unfold escCode at h
  split_ifs at h with h1 h2 h3 h4 h5 h6 h7 <;> simp_all <;> exact h.symm

theorem safeKey_escape_id (k : List Char) (h : safeKey k = true) : json_escape k = k := by
  induction k with
  | nil => rfl
  | cons c cs ih =>
    simp only [safeKey, List.all_cons, Bool.and_eq_true] at h
    have hc : escCode c = none := by
      cases he : escCode c with
      | none => rfl
      | some e => rw [he] at h; simp [Option.isNone] at h
    have ih2 := ih (by simpa [safeKey] using h.2)
    rw [json_escape_cons, hc, ih2]
    simp

theorem keyLt_asymm (a : List Char) : ∀ b, keyLt a b = true → keyLt b a = false := by
  induction a with
  | nil =>
    intro b hb
    cases b with
    | nil => simp [keyLt] at hb
    | cons c cs => simp [keyLt]
  | cons c cs ih =>
    intro b hb
    cases b with
    | nil => simp [keyLt] at hb
    | cons d ds =>
      simp only [keyLt] at hb ⊢
      by_cases h1 : c < d
      · have h2 : ¬ d < c := lt_asymm h1
        simp [h1, h2]
      · by_cases h2 : d < c
        · simp [h1, h2] at hb
        · simp [h1, h2] at hb ⊢
          exact ih ds hb

theorem mapInsert_ecat (acc : JEntries) (k : List Char) (v : JValue)
    (h : ∀ k1, keyMem k1 acc → keyLt k1 k = true) :
    mapInsert k v acc = ecat acc (JEntries.cons k v JEntries.nil) := by
  cases acc with
  | nil => rfl
  | cons k0 v0 tl =>
    have h0 : keyLt k0 k = true := h k0 (Or.inl rfl)
    have h1 : keyLt k k0 = false := keyLt_asymm k0 k h0
    simp only [mapInsert, h0, h1, Bool.false_eq_true, if_false, if_true, ecat]
    rw [mapInsert_ecat tl k v (fun k1 hk1 => h k1 (Or.inr hk1))]

theorem ecat_snoc (a : JEntries) (k : List Char) (v : JValue) (b : JEntries) :
    ecat (ecat a (JEntries.cons k v JEntries.nil)) b = ecat a (JEntries.cons k v b) := by
  cases a with
  | nil => rfl
  | cons k0 v0 tl =>
    simp only [ecat]
    rw [ecat_snoc tl k v b]

theorem keyMem_ecat_single (acc : JEntries) (k : List Char) (v : JValue) (x : List Char)
    (h : keyMem x (ecat acc (JEntries.cons k v JEntries.nil))) : keyMem x acc ∨ x = k := by
  cases acc with
  | nil =>
    simp only [ecat, keyMem, or_false] at h
    exact Or.inr h
  | cons k0 v0 tl =>
    simp only [ecat, keyMem] at h
    rcases h with h | h
    · exact Or.inl (Or.inl h)
    · rcases keyMem_ecat_single tl k v x h with h2 | h2
      · exact Or.inl (Or.inr h2)
      · exact Or.inr h2

theorem keysAbove_mem (k : List Char) (es : JEntries) (h : keysAbove k es = true) :
    ∀ x, keyMem x es → keyLt k x = true := by
  cases es with
  | nil => intro x hx; simp [keyMem] at hx
  | cons k2 v2 tl =>
    simp only [keysAbove, Bool.and_eq_true] at h
    intro x hx
    rcases hx with rfl | hx
    · exact h.1
    · exact keysAbove_mem k tl h.2 x hx

theorem jcat_jappend (acc : JList) (v : JValue) (tl : JList) :
    jcat (jappend acc v) tl = jcat acc (JList.cons v tl) := by
  cases acc with
  | nil => rfl
  | cons w acc2 =>
    simp only [jappend, jcat]
    rw [jcat_jappend acc2 v tl]

theorem dump_head (V : JValue) (h : rtSafeV V = true) :
    ∃ c cs, dumpMinified V = c :: cs ∧ isspaceC c = false ∧ c ≠ ']' ∧ c ≠ '}' := by
  cases V with
  | null => exact ⟨'n', _, rfl, by decide, by decide, by decide⟩
  | boolean b =>
    refine ⟨if b then 't' else 'f', (if b then "rue" else "alse").toList, ?_, ?_, ?_, ?_⟩ <;>
      cases b <;> first | rfl | decide
  | integral n =>
    have hdm : dumpMinified (JValue.integral n) = intToChars n := rfl
    rw [hdm]
    unfold intToChars
    by_cases hneg : n < 0
    · exact ⟨'-', natToChars n.natAbs, by simp [hneg], by decide, by decide, by decide⟩
    · obtain ⟨hall, hne⟩ := natToChars_digits n.natAbs
      cases hnc : natToChars n.natAbs with
      | nil => exact absurd hnc hne
      | cons c cs =>
        rw [hnc] at hall
        simp only [List.all_cons, Bool.and_eq_true] at hall
        have hdig := hall.1
        obtain ⟨hne1, hne2, _⟩ := isDigit_ne c hdig
        exact ⟨c, cs, by simp [hneg, hnc], isDigit_not_space c hdig, hne1, hne2⟩
  | floating q => simp [rtSafeV] at h
  | str s => exact ⟨'"', _, rfl, by decide, by decide, by decide⟩
  | arr xs => exact ⟨'[', _, rfl, by decide, by decide, by decide⟩
  | obj es => exact ⟨'\x7b', _, rfl, by decide, by decide, by decide⟩

theorem getC_at1 (pre t : List Char) (c1 c2 : Char) :
    getC (pre ++ c1 :: c2 :: t) (pre.length + 1) = some c2 := by
  have := getC_append pre (c1 :: c2 :: t) 1
  simpa [getC] using this

theorem done_tuple_eq (v : JValue) (ok : Bool) (m m2 : Nat) (h : m = m2) :
    (POut.done (v, m, ok) : POut (JValue × Nat × Bool)) = POut.done (v, m2, ok) := by
  rw [h]

theorem done_numloop_eq (t : Char) (m m2 : Nat) (L : List Char) (b : Bool) (h : m = m2) :
    (POut.done (t, m, L, b) : POut (Char × Nat × List Char × Bool)) =
      POut.done (t, m2, L, b) := by
  rw [h]

theorem parse_string_loop_spec (payload : List Char) :
    ∀ (pre rest acc : List Char) (ok : Bool) (fl : Nat),
    payload.length + 1 ≤ fl →
    parse_string_loop (pre ++ (json_escape payload ++ '"' :: rest)) pre.length acc ok fl =
      POut.done (JValue.str (acc ++ payload), pre.length + (json_escape payload).length + 1, ok) := by
  induction payload with
  | nil =>
    intro pre rest acc ok fl hfl
    cases fl with
    | zero => omega
    | succ g =>
      simp only [json_escape, List.nil_append, parse_string_loop]
      rw [readC_of_getC _ _ '"' (getC_at0 pre rest '"')]
      simp [pbind]
  | cons c cs ih =>
    intro pre rest acc ok fl hfl
    cases fl with
    | zero => omega
    | succ g =>
      cases hesc : escCode c with
      | none =>
        obtain ⟨hq, hb⟩ := escCode_none_ne c hesc
        have hs : pre ++ (json_escape (c :: cs) ++ '"' :: rest) =
            pre ++ c :: (json_escape cs ++ '"' :: rest) := by
          rw [json_escape_cons, hesc]
          simp
        rw [hs]
        simp only [parse_string_loop]
        rw [readC_of_getC _ _ c (getC_at0 pre _ c)]
        simp only [pbind, hq, hb, if_false]
        have hrec := ih (pre ++ [c]) rest (acc ++ [c]) ok g (by simp at hfl ⊢; omega)
        simp only [List.append_assoc, List.singleton_append, List.length_append,
          List.length_cons, List.length_nil] at hrec
        rw [hrec]
        rw [json_escape_cons, hesc]
        simp only [List.singleton_append, List.length_cons, List.append_assoc,
          List.cons_append, List.nil_append]
        exact done_tuple_eq _ _ _ _ (by omega)
      | some e =>
        have hs : pre ++ (json_escape (c :: cs) ++ '"' :: rest) =
            pre ++ '\\' :: e :: (json_escape cs ++ '"' :: rest) := by
          rw [json_escape_cons, hesc]
          simp
        have hlen : (json_escape (c :: cs)).length = (json_escape cs).length + 2 := by
          rw [json_escape_cons, hesc]
          simp
          try omega
        have hrec := ih (pre ++ ['\\', e]) rest (acc ++ [c]) ok g
          (by simp at hfl ⊢; omega)
        simp only [List.append_assoc, List.cons_append, List.nil_append, List.length_append,
          List.length_cons, List.length_nil] at hrec
        rcases escCode_cases c e hesc with ⟨rfl, rfl⟩ | ⟨rfl, rfl⟩ | ⟨rfl, rfl⟩ | ⟨rfl, rfl⟩ |
          ⟨rfl, rfl⟩ | ⟨rfl, rfl⟩ | ⟨rfl, rfl⟩ <;>
        · rw [hs]
          simp only [parse_string_loop]
          rw [readC_of_getC _ _ '\\' (getC_at0 pre _ '\\')]
          simp only [pbind]
          rw [readC_of_getC _ _ _ (getC_at1 pre _ '\\' _)]
          simp only [pbind, reduceIte]
          rw [hrec, hlen]
          exact done_tuple_eq _ _ _ _ (by omega)

theorem parse_number_loop_spec (ds : List Char) :
    ∀ (pre rest acc : List Char) (isD : Bool) (t : Char) (fl : Nat),
    ds.all (fun c => c = '-' || isDigitC c) = true →
    ((t = '-' || isDigitC t) || t = '.') = false →
    ds.length + 1 ≤ fl →
    parse_number_loop (pre ++ (ds ++ t :: rest)) pre.length acc isD fl =
      POut.done (t, pre.length + ds.length + 1, acc ++ ds, isD) := by
  induction ds with
  | nil =>
    intro pre rest acc isD t fl hall ht hfl
    cases fl with
    | zero => omega
    | succ g =>
      simp only [Bool.or_eq_false_iff] at ht
      obtain ⟨⟨ht1, ht2⟩, ht3⟩ := ht
      simp only [List.nil_append, parse_number_loop]
      rw [readC_of_getC _ _ t (getC_at0 pre rest t)]
      simp [pbind, ht1, ht2, ht3]
      rintro rfl
      simp at ht3
  | cons d ds2 ih =>
    intro pre rest acc isD t fl hall ht hfl
    cases fl with
    | zero => omega
    | succ g =>
      simp only [List.all_cons, Bool.and_eq_true] at hall
      have hs : pre ++ ((d :: ds2) ++ t :: rest) = pre ++ d :: (ds2 ++ t :: rest) := by simp
      rw [hs]
      simp only [parse_number_loop]
      rw [readC_of_getC _ _ d (getC_at0 pre _ d)]
      simp only [pbind, hall.1, if_true]
      have hrec := ih (pre ++ [d]) rest (acc ++ [d]) isD t g hall.2 ht
        (by
          have hlc : (d :: ds2).length = ds2.length + 1 := rfl
          omega)
      simp only [List.append_assoc, List.singleton_append, List.length_append,
        List.length_cons, List.length_nil] at hrec
      rw [hrec]
      exact done_numloop_eq _ _ _ _ _ (by
        have hlc : (d :: ds2).length = ds2.length + 1 := rfl
        omega)

theorem parse_number_int (n : Int) (pre rest : List Char) (ok : Bool) (t : Char) (fl : Nat)
    (ht : t = ',' ∨ t = ']' ∨ t = '}')
    (hfl : (intToChars n).length + 2 ≤ fl) :
    parse_number (pre ++ (intToChars n ++ t :: rest)) pre.length ok fl =
      POut.done (JValue.integral n, pre.length + (intToChars n).length, ok) := by
  cases fl with
  | zero => omega
  | succ g =>
    have htacc : ((t = '-' || isDigitC t) || t = '.') = false := by
      rcases ht with rfl | rfl | rfl <;> decide
    simp only [parse_number]
    rw [parse_number_loop_spec (intToChars n) pre rest [] false t g
      (intToChars_accepted n) htacc (by omega)]
    simp only [pbind]
    have hE : (t = 'E' || t = 'e') = false := by
      rcases ht with rfl | rfl | rfl <;> decide
    have hterm : (¬ isspaceC t = true ∧ t ≠ ',' ∧ t ≠ ']' ∧ t ≠ '}') = False := by
      rcases ht with rfl | rfl | rfl <;> simp
    simp only [hE, Bool.false_eq_true, if_false, hterm, List.nil_append]
    rw [stolModel_intToChars n]
    simp

theorem parse_null_spec (pre rest : List Char) (ok : Bool) :
    parse_null (pre ++ (['n', 'u', 'l', 'l'] ++ rest)) pre.length ok =
      POut.done (JValue.null, pre.length + 4, ok) := by
  simp only [parse_null, substrModel]
  have hle : pre.length ≤ (pre ++ (['n', 'u', 'l', 'l'] ++ rest)).length := by
    simp
  rw [if_pos hle, List.drop_left]
  simp [pbind, List.take]

theorem parse_bool_true_spec (pre rest : List Char) (ok : Bool) :
    parse_bool (pre ++ (['t', 'r', 'u', 'e'] ++ rest)) pre.length ok =
      POut.done (JValue.boolean true, pre.length + 4, ok) := by
  simp only [parse_bool, substrModel]
  have hle : pre.length ≤ (pre ++ (['t', 'r', 'u', 'e'] ++ rest)).length := by
    simp
  rw [if_pos hle, List.drop_left]
  simp [pbind, List.take]

theorem parse_bool_false_spec (pre rest : List Char) (ok : Bool) :
    parse_bool (pre ++ (['f', 'a', 'l', 's', 'e'] ++ rest)) pre.length ok =
      POut.done (JValue.boolean false, pre.length + 5, ok) := by
  simp only [parse_bool, substrModel]
  have hle : pre.length ≤ (pre ++ (['f', 'a', 'l', 's', 'e'] ++ rest)).length := by
    simp
  rw [if_pos hle, List.drop_left]
  simp [pbind, List.take]

theorem jcat_nil_right (xs : JList) : jcat xs JList.nil = xs := by
  cases xs with
  | nil => rfl
  | cons v tl =>
    simp only [jcat]
    rw [jcat_nil_right tl]

theorem intToChars_ne_nil (i : Int) : intToChars i ≠ [] := by
  unfold intToChars
  by_cases hneg : i < 0
  · simp [hneg]
  · simp [hneg, (natToChars_digits i.natAbs).2]

theorem dumpList_head (v : JValue) (tl : JList) (hv : rtSafeV v = true) :
    ∃ c1 ds, dumpList (JList.cons v tl) = c1 :: ds ∧ isspaceC c1 = false ∧ c1 ≠ ']' := by
  obtain ⟨c1, cs1, hdv, hns, hnb, _⟩ := dump_head v hv
  cases tl with
  | nil => exact ⟨c1, cs1, by simp [dumpList, hdv], hns, hnb⟩
  | cons w tl2 =>
    exact ⟨c1, cs1 ++ ',' :: dumpList (JList.cons w tl2), by simp [dumpList, hdv], hns, hnb⟩

theorem dumpEntries_cons_head (k : List Char) (v : JValue) (tl : JEntries) :
    ∃ ds, dumpEntries (JEntries.cons k v tl) = '"' :: ds := by
  cases tl with
  | nil => exact ⟨_, rfl⟩
  | cons k2 w tl2 => exact ⟨_, rfl⟩

theorem rt_null (pre rest : List Char) (ok : Bool) (fl : Nat) (hfl : 2 ≤ fl) :
    parse_next (pre ++ (dumpMinified JValue.null ++ rest)) pre.length ok fl =
      POut.done (JValue.null, pre.length + (dumpMinified JValue.null).length, ok) := by
  cases fl with
  | zero => omega
  | succ g =>
    show parse_next (pre ++ (['n', 'u', 'l', 'l'] ++ rest)) pre.length ok (g + 1) = _
    simp only [List.cons_append, List.nil_append, parse_next]
    rw [consume_ws_done _ _ 'n' g (getC_at0 pre _ 'n') (by decide) (by omega)]
    simp only [pbind]
    rw [readC_of_getC _ _ 'n' (getC_at0 pre _ 'n')]
    simp only [pbind, reduceIte]
    have hnull := parse_null_spec pre rest ok
    simp only [List.cons_append, List.nil_append] at hnull
    rw [hnull]
    rfl

theorem rt_bool (b : Bool) (pre rest : List Char) (ok : Bool) (fl : Nat) (hfl : 2 ≤ fl) :
    parse_next (pre ++ (dumpMinified (JValue.boolean b) ++ rest)) pre.length ok fl =
      POut.done (JValue.boolean b,
        pre.length + (dumpMinified (JValue.boolean b)).length, ok) := by
  cases fl with
  | zero => omega
  | succ g =>
    cases b with
    | true =>
      show parse_next (pre ++ (['t', 'r', 'u', 'e'] ++ rest)) pre.length ok (g + 1) = _
      simp only [List.cons_append, List.nil_append, parse_next]
      rw [consume_ws_done _ _ 't' g (getC_at0 pre _ 't') (by decide) (by omega)]
      simp only [pbind]
      rw [readC_of_getC _ _ 't' (getC_at0 pre _ 't')]
      simp only [pbind, reduceIte]
      have hbool := parse_bool_true_spec pre rest ok
      simp only [List.cons_append, List.nil_append] at hbool
      rw [hbool]
      rfl
    | false =>
      show parse_next (pre ++ (['f', 'a', 'l', 's', 'e'] ++ rest)) pre.length ok (g + 1) = _
      simp only [List.cons_append, List.nil_append, parse_next]
      rw [consume_ws_done _ _ 'f' g (getC_at0 pre _ 'f') (by decide) (by omega)]
      simp only [pbind]
      rw [readC_of_getC _ _ 'f' (getC_at0 pre _ 'f')]
      simp only [pbind, reduceIte]
      have hbool := parse_bool_false_spec pre rest ok
      simp only [List.cons_append, List.nil_append] at hbool
      rw [hbool]
      rfl

theorem rt_int (n : Int) (pre rest : List Char) (ok : Bool) (fl : Nat)
    (hrt : restTerm rest) (hfl : (intToChars n).length + 3 ≤ fl) :
    parse_next (pre ++ (dumpMinified (JValue.integral n) ++ rest)) pre.length ok fl =
      POut.done (JValue.integral n,
        pre.length + (dumpMinified (JValue.integral n)).length, ok) := by
  obtain ⟨t, r2, rfl, ht⟩ := hrt
  have hdm : dumpMinified (JValue.integral n) = intToChars n := rfl
  rw [hdm]
  cases fl with
  | zero => omega
  | succ g =>
    cases hic : intToChars n with
    | nil => exact absurd hic (intToChars_ne_nil n)
    | cons c0 cs0 =>
      have hacc := intToChars_accepted n
      rw [hic] at hacc
      simp only [List.all_cons, Bool.and_eq_true, Bool.or_eq_true,
        decide_eq_true_eq] at hacc
      have hlen : (intToChars n).length = cs0.length + 1 := by rw [hic]; rfl
      have hs : pre ++ ((c0 :: cs0) ++ t :: r2) = pre ++ c0 :: (cs0 ++ t :: r2) := by simp
      rw [hs]
      have hnum := parse_number_int n pre r2 ok t g ht (by omega)
      rw [hic, hs] at hnum
      rcases hacc.1 with rfl | hdig
      · simp only [parse_next]
        rw [consume_ws_done _ _ '-' g (getC_at0 pre _ '-') (by decide) (by omega)]
        simp only [pbind]
        rw [readC_of_getC _ _ '-' (getC_at0 pre _ '-')]
        simp only [pbind, reduceIte]
        exact hnum
      · obtain ⟨hb1, hb2⟩ := isDigit_bounds c0 hdig
        obtain ⟨e1, e2, e3, e4, e5, e6, e7, e8, e9, e10, e11, e12, e13, e14⟩ :=
          isDigit_ne c0 hdig
        simp only [parse_next]
        rw [consume_ws_done _ _ c0 g (getC_at0 pre _ c0) (isDigit_not_space c0 hdig)
          (by omega)]
        simp only [pbind]
        rw [readC_of_getC _ _ c0 (getC_at0 pre _ c0)]
        simp only [pbind]
        rw [if_neg e10, if_neg e11]
        have hbf : (c0 = 't' || c0 = 'f') = false := by simp [e12, e13]
        have hnumc : ((c0 ≤ '9' && '0' ≤ c0) || c0 = '-') = true := by simp [hb1, hb2]
        rw [if_neg e5]
        simp only [hbf, Bool.false_eq_true, if_false]
        rw [if_neg e14]
        simp only [hnumc, if_true]
        exact hnum

theorem rt_str (s0 : List Char) (pre rest : List Char) (ok : Bool) (fl : Nat)
    (hfl : s0.length + 4 ≤ fl) :
    parse_next (pre ++ (dumpMinified (JValue.str s0) ++ rest)) pre.length ok fl =
      POut.done (JValue.str s0,
        pre.length + (dumpMinified (JValue.str s0)).length, ok) := by
  cases fl with
  | zero => omega
  | succ g =>
    cases g with
    | zero => omega
    | succ g2 =>
      have hs : pre ++ (dumpMinified (JValue.str s0) ++ rest) =
          pre ++ '"' :: (json_escape s0 ++ '"' :: rest) := by
        simp [dumpMinified]
      have hlen : (dumpMinified (JValue.str s0)).length = (json_escape s0).length + 2 := by
        simp [dumpMinified]
        try omega
      rw [hs]
      simp only [parse_next]
      rw [consume_ws_done _ _ '"' (g2 + 1) (getC_at0 pre _ '"') (by decide) (by omega)]
      simp only [pbind]
      rw [readC_of_getC _ _ '"' (getC_at0 pre _ '"')]
      simp only [pbind, reduceIte]
      simp only [parse_string]
      have hrec := parse_string_loop_spec s0 (pre ++ ['"']) rest [] ok g2 (by omega)
      simp only [List.append_assoc, List.singleton_append, List.length_append,
        List.length_cons, List.length_nil, List.nil_append] at hrec
      rw [hrec, hlen]
      exact done_tuple_eq _ _ _ _ (by omega)

theorem rt_arr_nil (pre rest : List Char) (ok : Bool) (fl : Nat) (hfl : 3 ≤ fl) :
    parse_next (pre ++ (dumpMinified (JValue.arr JList.nil) ++ rest)) pre.length ok fl =
      POut.done (JValue.arr JList.nil,
        pre.length + (dumpMinified (JValue.arr JList.nil)).length, ok) := by
  cases fl with
  | zero => omega
  | succ g =>
    cases g with
    | zero => omega
    | succ g2 =>
      have hs : pre ++ (dumpMinified (JValue.arr JList.nil) ++ rest) =
          pre ++ '[' :: ']' :: rest := by
        simp [dumpMinified, dumpList]
      rw [hs]
      simp only [parse_next]
      rw [consume_ws_done _ _ '[' (g2 + 1) (getC_at0 pre _ '[') (by decide) (by omega)]
      simp only [pbind]
      rw [readC_of_getC _ _ '[' (getC_at0 pre _ '[')]
      simp only [pbind, reduceIte]
      simp only [parse_array]
      rw [consume_ws_done _ _ ']' g2 (getC_at1 pre _ '[' ']') (by decide) (by omega)]
      simp only [pbind]
      rw [readC_of_getC _ _ ']' (getC_at1 pre _ '[' ']')]
      simp only [pbind, reduceIte]
      rfl

theorem rt_obj_nil (pre rest : List Char) (ok : Bool) (fl : Nat) (hfl : 3 ≤ fl) :
    parse_next (pre ++ (dumpMinified (JValue.obj JEntries.nil) ++ rest)) pre.length ok fl =
      POut.done (JValue.obj JEntries.nil,
        pre.length + (dumpMinified (JValue.obj JEntries.nil)).length, ok) := by
  cases fl with
  | zero => omega
  | succ g =>
    cases g with
    | zero => omega
    | succ g2 =>
      have hs : pre ++ (dumpMinified (JValue.obj JEntries.nil) ++ rest) =
          pre ++ '\x7b' :: '}' :: rest := by
        simp [dumpMinified, dumpEntries]
      rw [hs]
      simp only [parse_next]
      rw [consume_ws_done _ _ '\x7b' (g2 + 1) (getC_at0 pre _ '\x7b') (by decide) (by omega)]
      simp only [pbind]
      rw [readC_of_getC _ _ '\x7b' (getC_at0 pre _ '\x7b')]
      simp only [pbind, reduceIte]
      simp only [parse_object]
      rw [consume_ws_done _ _ '}' g2 (getC_at1 pre _ '\x7b' '}') (by decide) (by omega)]
      simp only [pbind]
      rw [readC_of_getC _ _ '}' (getC_at1 pre _ '\x7b' '}')]
      simp only [pbind, reduceIte]
      rfl

mutual

/-- Round-trip lemma for one serialized value: parse_next consumes exactly
the minified dump of a round-trip-safe value and reconstructs it, leaving
the cursor right after the dump and the success flag untouched.  A value
whose dump is a bare number additionally needs the remaining input to start
with ',', ']' or '}' (parse_number's terminator requirement). -/
theorem rt_value (V : JValue) (pre rest : List Char) (ok : Bool) (fl : Nat)
    (hsafe : rtSafeV V = true)
    (hnum : JClassOf V = JClass.integral → restTerm rest)
    (hfl : needV V ≤ fl) :
    parse_next (pre ++ (dumpMinified V ++ rest)) pre.length ok fl =
      POut.done (V, pre.length + (dumpMinified V).length, ok) := by
  cases V with
  | null => exact rt_null pre rest ok fl (by simp only [needV] at hfl; omega)
  | boolean b => exact rt_bool b pre rest ok fl (by simp only [needV] at hfl; omega)
  | integral n =>
    exact rt_int n pre rest ok fl (hnum rfl) (by simp only [needV] at hfl; omega)
  | floating q => simp [rtSafeV] at hsafe
  | str s0 => exact rt_str s0 pre rest ok fl (by simp only [needV] at hfl; omega)
  | arr xs =>
    cases xs with
    | nil =>
      exact rt_arr_nil pre rest ok fl (by simp only [needV, needL] at hfl; omega)
    | cons v tl =>
      simp only [needV, needL] at hfl
      simp only [rtSafeV, rtSafeL, Bool.and_eq_true] at hsafe
      obtain ⟨hv, htl⟩ := hsafe
      obtain ⟨c1, ds, hdl, hns, hnb⟩ := dumpList_head v tl hv
      cases fl with
      | zero => omega
      | succ g =>
        cases g with
        | zero => omega
        | succ g2 =>
          have hshape : pre ++ (dumpMinified (JValue.arr (JList.cons v tl)) ++ rest) =
              pre ++ '[' :: (dumpList (JList.cons v tl) ++ ']' :: rest) := by
            simp [dumpMinified]
          rw [hshape]
          simp only [parse_next]
          rw [consume_ws_done _ _ '[' (g2 + 1) (getC_at0 pre _ '[') (by decide) (by omega)]
          simp only [pbind]
          rw [readC_of_getC _ _ '[' (getC_at0 pre _ '[')]
          simp only [pbind, reduceIte]
          simp only [parse_array]
          have hshape2 : pre ++ '[' :: (dumpList (JList.cons v tl) ++ ']' :: rest) =
              pre ++ '[' :: c1 :: (ds ++ ']' :: rest) := by rw [hdl]; simp
          rw [hshape2]
          rw [consume_ws_done _ _ c1 g2 (getC_at1 pre _ '[' c1) hns (by omega)]
          simp only [pbind]
          rw [readC_of_getC _ _ c1 (getC_at1 pre _ '[' c1)]
          simp only [pbind]
          rw [if_neg hnb]
          have hrec := rt_arr_loop v tl JList.nil (pre ++ ['[']) rest ok g2 hv htl
            (by simp only [needL]; omega)
          rw [hdl] at hrec
          simp only [List.append_assoc, List.cons_append, List.nil_append,
            List.singleton_append, List.length_append, List.length_cons,
            List.length_nil] at hrec
          rw [hrec]
          simp only [jcat]
          have hlen1 : (dumpList (JList.cons v tl)).length = ds.length + 1 := by
            rw [hdl]; rfl
          have hlen2 : (dumpMinified (JValue.arr (JList.cons v tl))).length =
              (dumpList (JList.cons v tl)).length + 2 := by
            simp [dumpMinified]
            try omega
          exact done_tuple_eq _ _ _ _ (by omega)
  | obj es =>
    cases es with
    | nil =>
      exact rt_obj_nil pre rest ok fl (by simp only [needV, needE] at hfl; omega)
    | cons k v tl =>
      simp only [needV, needE] at hfl
      simp only [rtSafeV, rtSafeE, Bool.and_eq_true] at hsafe
      obtain ⟨⟨⟨hk, hv⟩, habove⟩, htl⟩ := hsafe
      obtain ⟨ds, hde⟩ := dumpEntries_cons_head k v tl
      cases fl with
      | zero => omega
      | succ g =>
        cases g with
        | zero => omega
        | succ g2 =>
          have hshape : pre ++ (dumpMinified (JValue.obj (JEntries.cons k v tl)) ++ rest) =
              pre ++ '\x7b' :: (dumpEntries (JEntries.cons k v tl) ++ '}' :: rest) := by
            simp [dumpMinified]
          rw [hshape]
          simp only [parse_next]
          rw [consume_ws_done _ _ '\x7b' (g2 + 1) (getC_at0 pre _ '\x7b') (by decide)
            (by omega)]
          simp only [pbind]
          rw [readC_of_getC _ _ '\x7b' (getC_at0 pre _ '\x7b')]
          simp only [pbind, reduceIte]
          simp only [parse_object]
          have hshape2 : pre ++ '\x7b' :: (dumpEntries (JEntries.cons k v tl) ++ '}' :: rest) =
              pre ++ '\x7b' :: '"' :: (ds ++ '}' :: rest) := by rw [hde]; simp
          rw [hshape2]
          rw [consume_ws_done _ _ '"' g2 (getC_at1 pre _ '\x7b' '"') (by decide) (by omega)]
          simp only [pbind]
          rw [readC_of_getC _ _ '"' (getC_at1 pre _ '\x7b' '"')]
          simp only [pbind, reduceIte]
          have hrec := rt_obj_loop k v tl JEntries.nil (pre ++ ['\x7b']) rest ok g2
            hk hv habove htl (fun k1 k2 h1 _ => absurd h1 (by simp [keyMem]))
            (by simp only [needE]; omega)
          rw [hde] at hrec
          simp only [List.append_assoc, List.cons_append, List.nil_append,
            List.singleton_append, List.length_append, List.length_cons,
            List.length_nil] at hrec
          rw [hrec]
          simp only [ecat]
          have hlen1 : (dumpEntries (JEntries.cons k v tl)).length = ds.length + 1 := by
            rw [hde]; rfl
          have hlen2 : (dumpMinified (JValue.obj (JEntries.cons k v tl))).length =
              (dumpEntries (JEntries.cons k v tl)).length + 2 := by
            simp [dumpMinified]
            try omega
          exact done_tuple_eq _ _ _ _ (by omega)
termination_by sizeOf V

/-- Round-trip lemma for the element loop of parse_array over the serialized
remaining elements followed by the closing bracket. -/
theorem rt_arr_loop (v : JValue) (tl : JList) (acc : JList) (pre rest : List Char)
    (ok : Bool) (fl : Nat) (hv : rtSafeV v = true) (htl : rtSafeL tl = true)
    (hfl : needL (JList.cons v tl) ≤ fl) :
    parse_array_loop (pre ++ (dumpList (JList.cons v tl) ++ ']' :: rest))
        pre.length ok acc fl =
      POut.done (JValue.arr (jcat acc (JList.cons v tl)),
        pre.length + (dumpList (JList.cons v tl)).length + 1, ok) := by
  simp only [needL] at hfl
  cases fl with
  | zero => omega
  | succ g =>
    cases tl with
    | nil =>
      have hshape : pre ++ (dumpList (JList.cons v JList.nil) ++ ']' :: rest) =
          pre ++ (dumpMinified v ++ ']' :: rest) := by simp [dumpList]
      rw [hshape]
      simp only [parse_array_loop]
      have hval := rt_value v pre (']' :: rest) ok g hv
        (fun _ => ⟨']', rest, rfl, Or.inr (Or.inl rfl)⟩) (by omega)
      rw [hval]
      simp only [pbind]
      have hg1 : getC (pre ++ (dumpMinified v ++ ']' :: rest))
          (pre.length + (dumpMinified v).length) = some ']' := by
        have := getC_at0 (pre ++ dumpMinified v) rest ']'
        simpa using this
      rw [consume_ws_done _ _ ']' g hg1 (by decide) (by omega)]
      simp only [pbind]
      rw [readC_of_getC _ _ ']' hg1]
      simp only [pbind, reduceIte]
      have hjc : jappend acc v = jcat acc (JList.cons v JList.nil) := by
        rw [← jcat_jappend acc v JList.nil, jcat_nil_right]
      rw [hjc]
      have hlenl : (dumpList (JList.cons v JList.nil)).length = (dumpMinified v).length := by
        simp [dumpList]
      exact done_tuple_eq _ _ _ _ (by omega)
    | cons w tl2 =>
      simp only [rtSafeL, Bool.and_eq_true] at htl
      obtain ⟨hw, htl2⟩ := htl
      have hshape : pre ++ (dumpList (JList.cons v (JList.cons w tl2)) ++ ']' :: rest) =
          pre ++ (dumpMinified v ++ ',' :: (dumpList (JList.cons w tl2) ++ ']' :: rest)) := by
        simp [dumpList]
      rw [hshape]
      simp only [parse_array_loop]
      have hval := rt_value v pre
        (',' :: (dumpList (JList.cons w tl2) ++ ']' :: rest)) ok g hv
        (fun _ => ⟨',', _, rfl, Or.inl rfl⟩) (by omega)
      rw [hval]
      simp only [pbind]
      have hg1 : getC
          (pre ++ (dumpMinified v ++ ',' :: (dumpList (JList.cons w tl2) ++ ']' :: rest)))
          (pre.length + (dumpMinified v).length) = some ',' := by
        have := getC_at0 (pre ++ dumpMinified v) (dumpList (JList.cons w tl2) ++ ']' :: rest) ','
        simpa using this
      rw [consume_ws_done _ _ ',' g hg1 (by decide) (by omega)]
      simp only [pbind]
      rw [readC_of_getC _ _ ',' hg1]
      simp only [pbind, reduceIte]
      have hrec := rt_arr_loop w tl2 (jappend acc v) (pre ++ dumpMinified v ++ [','])
        rest ok g hw htl2 (by omega)
      have hp1 : (pre ++ dumpMinified v ++ [',']).length =
          pre.length + (dumpMinified v).length + 1 := by
        simp only [List.length_append, List.length_cons, List.length_nil]
        try omega
      have hs1 : (pre ++ dumpMinified v ++ [',']) ++
          (dumpList (JList.cons w tl2) ++ ']' :: rest) =
          pre ++ (dumpMinified v ++ ',' :: (dumpList (JList.cons w tl2) ++ ']' :: rest)) := by
        simp
      rw [hp1, hs1] at hrec
      rw [hrec]
      rw [jcat_jappend acc v (JList.cons w tl2)]
      have hlenl : (dumpList (JList.cons v (JList.cons w tl2))).length =
          (dumpMinified v).length + ((dumpList (JList.cons w tl2)).length + 1) := by
        simp [dumpList]
        try omega
      exact done_tuple_eq _ _ _ _ (by omega)
termination_by sizeOf v + sizeOf tl

/-- Round-trip lemma for the key/value loop of parse_object over the
serialized remaining entries followed by the closing brace: each emitted key
is read back verbatim (serialization-safe keys pass unchanged through
json_escape and ToString) and the ordered inserts rebuild exactly the
remaining entry list appended to the accumulator. -/
theorem rt_obj_loop (k : List Char) (v : JValue) (tl : JEntries) (acc : JEntries)
    (pre rest : List Char) (ok : Bool) (fl : Nat)
    (hk : safeKey k = true) (hv : rtSafeV v = true)
    (habove : keysAbove k tl = true) (htl : rtSafeE tl = true)
    (hbelow : entsBelowAll acc (JEntries.cons k v tl))
    (hfl : needE (JEntries.cons k v tl) ≤ fl) :
    parse_object_loop (pre ++ (dumpEntries (JEntries.cons k v tl) ++ '}' :: rest))
        pre.length ok acc fl =
      POut.done (JValue.obj (ecat acc (JEntries.cons k v tl)),
        pre.length + (dumpEntries (JEntries.cons k v tl)).length + 1, ok) := by
  simp only [needE] at hfl
  have hstrlen : (dumpMinified (JValue.str k)).length = k.length + 2 := by
    simp [dumpMinified, safeKey_escape_id k hk]
  have htos : (toStringOk (JValue.str k)).1 = k := by
    simp [toStringOk, safeKey_escape_id k hk]
  have hmi : mapInsert k v acc = ecat acc (JEntries.cons k v JEntries.nil) :=
    mapInsert_ecat acc k v (fun k1 h1 => hbelow k1 k h1 (Or.inl rfl))
  obtain ⟨c1, cs1, hdv, hns1, hnb1, hnb2⟩ := dump_head v hv
  cases fl with
  | zero => omega
  | succ g =>
    cases tl with
    | nil =>
      have hshape : pre ++ (dumpEntries (JEntries.cons k v JEntries.nil) ++ '}' :: rest) =
          pre ++ (dumpMinified (JValue.str k) ++ ':' ::
            (dumpMinified v ++ '}' :: rest)) := by
        simp [dumpEntries, dumpMinified, safeKey_escape_id k hk]
      rw [hshape]
      simp only [parse_object_loop]
      have hkey := rt_str k pre (':' :: (dumpMinified v ++ '}' :: rest)) ok g (by omega)
      rw [hkey]
      simp only [pbind]
      have hg1 : getC (pre ++ (dumpMinified (JValue.str k) ++ ':' ::
          (dumpMinified v ++ '}' :: rest)))
          (pre.length + (dumpMinified (JValue.str k)).length) = some ':' := by
        have := getC_at0 (pre ++ dumpMinified (JValue.str k))
          (dumpMinified v ++ '}' :: rest) ':'
        simpa using this
      rw [consume_ws_done _ _ ':' g hg1 (by decide) (by omega)]
      simp only [pbind]
      rw [readC_of_getC _ _ ':' hg1]
      simp only [pbind]
      rw [if_neg (show ¬ (':' ≠ ':') by decide)]
      have hg2 : getC (pre ++ (dumpMinified (JValue.str k) ++ ':' ::
          (dumpMinified v ++ '}' :: rest)))
          (pre.length + (dumpMinified (JValue.str k)).length + 1) = some c1 := by
        rw [hdv]
        have := getC_at0 (pre ++ dumpMinified (JValue.str k) ++ [':'])
          (cs1 ++ '}' :: rest) c1
        simpa using this
      rw [consume_ws_done _ _ c1 g hg2 hns1 (by omega)]
      simp only [pbind]
      have hval := rt_value v (pre ++ dumpMinified (JValue.str k) ++ [':'])
        ('}' :: rest) ok g hv (fun _ => ⟨'}', rest, rfl, Or.inr (Or.inr rfl)⟩) (by omega)
      have hp1 : (pre ++ dumpMinified (JValue.str k) ++ [':']).length =
          pre.length + (dumpMinified (JValue.str k)).length + 1 := by
        simp only [List.length_append, List.length_cons, List.length_nil]
        try omega
      have hs1 : (pre ++ dumpMinified (JValue.str k) ++ [':']) ++
          (dumpMinified v ++ '}' :: rest) =
          pre ++ (dumpMinified (JValue.str k) ++ ':' :: (dumpMinified v ++ '}' :: rest)) := by
        simp
      rw [hp1, hs1] at hval
      rw [hval]
      simp only [pbind]
      rw [htos, hmi]
      have hg3 : getC (pre ++ (dumpMinified (JValue.str k) ++ ':' ::
          (dumpMinified v ++ '}' :: rest)))
          (pre.length + (dumpMinified (JValue.str k)).length + 1 +
            (dumpMinified v).length) = some '}' := by
        have h0 := getC_at0 (pre ++ dumpMinified (JValue.str k) ++ [':'] ++ dumpMinified v)
          rest '}'
        simp only [List.append_assoc, List.cons_append, List.nil_append,
          List.singleton_append, List.length_append, List.length_cons,
          List.length_nil] at h0
        convert h0 using 2
        omega
      rw [consume_ws_done _ _ '}' g hg3 (by decide) (by omega)]
      simp only [pbind]
      rw [readC_of_getC _ _ '}' hg3]
      simp only [pbind, reduceIte]
      have hdelen : (dumpEntries (JEntries.cons k v JEntries.nil)).length =
          k.length + (dumpMinified v).length + 3 := by
        simp [dumpEntries]
        try omega
      exact done_tuple_eq _ _ _ _ (by omega)
    | cons k2 w tl2 =>
      simp only [rtSafeE, Bool.and_eq_true] at htl
      obtain ⟨⟨⟨hk2, hw⟩, hab2⟩, htl2⟩ := htl
      have hshape : pre ++ (dumpEntries (JEntries.cons k v (JEntries.cons k2 w tl2)) ++
            '}' :: rest) =
          pre ++ (dumpMinified (JValue.str k) ++ ':' :: (dumpMinified v ++ ',' ::
            (dumpEntries (JEntries.cons k2 w tl2) ++ '}' :: rest))) := by
        simp [dumpEntries, dumpMinified, safeKey_escape_id k hk]
      rw [hshape]
      simp only [parse_object_loop]
      have hkey := rt_str k pre
        (':' :: (dumpMinified v ++ ',' ::
          (dumpEntries (JEntries.cons k2 w tl2) ++ '}' :: rest))) ok g (by omega)
      rw [hkey]
      simp only [pbind]
      have hg1 : getC (pre ++ (dumpMinified (JValue.str k) ++ ':' :: (dumpMinified v ++ ',' ::
          (dumpEntries (JEntries.cons k2 w tl2) ++ '}' :: rest))))
          (pre.length + (dumpMinified (JValue.str k)).length) = some ':' := by
        have := getC_at0 (pre ++ dumpMinified (JValue.str k))
          (dumpMinified v ++ ',' :: (dumpEntries (JEntries.cons k2 w tl2) ++ '}' :: rest)) ':'
        simpa using this
      rw [consume_ws_done _ _ ':' g hg1 (by decide) (by omega)]
      simp only [pbind]
      rw [readC_of_getC _ _ ':' hg1]
      simp only [pbind]
      rw [if_neg (show ¬ (':' ≠ ':') by decide)]
      have hg2 : getC (pre ++ (dumpMinified (JValue.str k) ++ ':' :: (dumpMinified v ++ ',' ::
          (dumpEntries (JEntries.cons k2 w tl2) ++ '}' :: rest))))
          (pre.length + (dumpMinified (JValue.str k)).length + 1) = some c1 := by
        rw [hdv]
        have := getC_at0 (pre ++ dumpMinified (JValue.str k) ++ [':'])
          (cs1 ++ ',' :: (dumpEntries (JEntries.cons k2 w tl2) ++ '}' :: rest)) c1
        simpa using this
      rw [consume_ws_done _ _ c1 g hg2 hns1 (by omega)]
      simp only [pbind]
      have hval := rt_value v (pre ++ dumpMinified (JValue.str k) ++ [':'])
        (',' :: (dumpEntries (JEntries.cons k2 w tl2) ++ '}' :: rest)) ok g hv
        (fun _ => ⟨',', _, rfl, Or.inl rfl⟩) (by omega)
      have hp1 : (pre ++ dumpMinified (JValue.str k) ++ [':']).length =
          pre.length + (dumpMinified (JValue.str k)).length + 1 := by
        simp only [List.length_append, List.length_cons, List.length_nil]
        try omega
      have hs1 : (pre ++ dumpMinified (JValue.str k) ++ [':']) ++
          (dumpMinified v ++ ',' :: (dumpEntries (JEntries.cons k2 w tl2) ++ '}' :: rest)) =
          pre ++ (dumpMinified (JValue.str k) ++ ':' :: (dumpMinified v ++ ',' ::
            (dumpEntries (JEntries.cons k2 w tl2) ++ '}' :: rest))) := by
        simp
      rw [hp1, hs1] at hval
      rw [hval]
      simp only [pbind]
      rw [htos, hmi]
      have hg3 : getC (pre ++ (dumpMinified (JValue.str k) ++ ':' :: (dumpMinified v ++ ',' ::
          (dumpEntries (JEntries.cons k2 w tl2) ++ '}' :: rest))))
          (pre.length + (dumpMinified (JValue.str k)).length + 1 +
            (dumpMinified v).length) = some ',' := by
        have h0 := getC_at0 (pre ++ dumpMinified (JValue.str k) ++ [':'] ++ dumpMinified v)
          (dumpEntries (JEntries.cons k2 w tl2) ++ '}' :: rest) ','
        simp only [List.append_assoc, List.cons_append, List.nil_append,
          List.singleton_append, List.length_append, List.length_cons,
          List.length_nil] at h0
        convert h0 using 2
        omega
      rw [consume_ws_done _ _ ',' g hg3 (by decide) (by omega)]
      simp only [pbind]
      rw [readC_of_getC _ _ ',' hg3]
      simp only [pbind, reduceIte]
      have hbelow2 : entsBelowAll (ecat acc (JEntries.cons k v JEntries.nil))
          (JEntries.cons k2 w tl2) := by
        intro k1 kx h1 hx
        rcases keyMem_ecat_single acc k v k1 h1 with h1a | h1b
        · exact hbelow k1 kx h1a (Or.inr hx)
        · subst h1b
          exact keysAbove_mem k1 (JEntries.cons k2 w tl2) habove kx hx
      have hrec := rt_obj_loop k2 w tl2 (ecat acc (JEntries.cons k v JEntries.nil))
        (pre ++ dumpMinified (JValue.str k) ++ [':'] ++ dumpMinified v ++ [','])
        rest ok g hk2 hw hab2 htl2 hbelow2 (by omega)
      have hp2 : (pre ++ dumpMinified (JValue.str k) ++ [':'] ++ dumpMinified v ++
          [',']).length =
          pre.length + (dumpMinified (JValue.str k)).length + 1 +
            (dumpMinified v).length + 1 := by
        simp only [List.length_append, List.length_cons, List.length_nil]
        try omega
      have hs2 : (pre ++ dumpMinified (JValue.str k) ++ [':'] ++ dumpMinified v ++ [',']) ++
          (dumpEntries (JEntries.cons k2 w tl2) ++ '}' :: rest) =
          pre ++ (dumpMinified (JValue.str k) ++ ':' :: (dumpMinified v ++ ',' ::
            (dumpEntries (JEntries.cons k2 w tl2) ++ '}' :: rest))) := by
        simp
      rw [hp2, hs2] at hrec
      rw [hrec]
      rw [ecat_snoc acc k v (JEntries.cons k2 w tl2)]
      have hdelen : (dumpEntries (JEntries.cons k v (JEntries.cons k2 w tl2))).length =
          k.length + (dumpMinified v).length +
            (dumpEntries (JEntries.cons k2 w tl2)).length + 4 := by
        simp [dumpEntries]
        try omega
      exact done_tuple_eq _ _ _ _ (by omega)
termination_by sizeOf v + sizeOf tl

end

/- ------------------------------------------------------------------ -/
/- Claim theorems                                                     -/
/- ------------------------------------------------------------------ -/

/-- C3: when an object text binds the same key twice, the later pair
overwrites the earlier one (Object[Key.ToString()] = Value is a last-write-
wins map store), and in particular JSON::Load on the text with duplicate key
"k" bound to 1 then 2 returns an Object whose single entry "k" holds the
Integral 2 with the success flag still true. -/
theorem c3_duplicate_keys :
    (∀ es k v, mapFind k (mapInsert k v es) = some v) ∧
    JSONLoad ("\x7b\"k\":1,\"k\":2\x7d".toList) 50 =
      POut.done (JValue.obj (JEntries.cons "k".toList (JValue.integral 2) JEntries.nil), true) := by
  constructor
  · exact fun es k v => mapFind_mapInsert_self es k v
  · rfl

/-- C4: mutable keyed access coerces any value to the Object tag (discarding
a non-Object payload), default-creates an absent key as Null, and returns the
slot; evaluating value["a"]["b"] starting from Null therefore builds the
object with entry "a" holding the object with entry "b" holding null. -/
theorem c4_keyed_access_vivification :
    (∀ v k, JClassOf (subscriptKey v k).1 = JClass.object) ∧
    (∀ v k, JClassOf v ≠ JClass.object →
      subscriptKey v k = (JValue.obj (JEntries.cons k JValue.null JEntries.nil), JValue.null)) ∧
    (∀ es k, mapFind k es = none →
      subscriptKey (JValue.obj es) k = (JValue.obj (mapInsert k JValue.null es), JValue.null)) ∧
    (∀ es k w, mapFind k es = some w →
      subscriptKey (JValue.obj es) k = (JValue.obj es, w)) ∧
    touchKey2 JValue.null "a".toList "b".toList =
      JValue.obj (JEntries.cons "a".toList
        (JValue.obj (JEntries.cons "b".toList JValue.null JEntries.nil)) JEntries.nil) := by
  refine ⟨?_, ?_, ?_, ?_, rfl⟩
  · intro v k
    unfold subscriptKey
    rcases h : mapFind k (entriesOf (SetType v JClass.object)) with _ | w <;>
      simp [h, JClassOf]
  · intro v k h
    cases v <;> simp_all [subscriptKey, SetType, JClassOf, makeDefault, entriesOf, mapFind,
      mapInsert]
  · intro es k h
    simp [subscriptKey, SetType, JClassOf, entriesOf, h]
  · intro es k w h
    simp [subscriptKey, SetType, JClassOf, entriesOf, h]

/-- C4 witness: concrete instance of the coercion clause at a Boolean value
(non-Object tag coerced, payload discarded, key created as Null). -/
theorem c4_keyed_access_vivification_witness :
    JClassOf (JValue.boolean true) ≠ JClass.object ∧
    subscriptKey (JValue.boolean true) "a".toList =
      (JValue.obj (JEntries.cons "a".toList JValue.null JEntries.nil), JValue.null) :=
  ⟨by decide, c4_keyed_access_vivification.2.1 (JValue.boolean true) "a".toList (by decide)⟩

/-- C5: mutable indexed access coerces any value to the Array tag, pads with
Null up to and including the requested index when it is at or beyond the
current length, and returns slot i; assigning into value[3] starting from
Null yields a four-element array whose slots 0..2 are Null. -/
theorem c5_indexed_access_padding :
    (∀ v i, JClassOf (subscriptIdx v i).1 = JClass.array) ∧
    (∀ v i, JClassOf v ≠ JClass.array →
      subscriptIdx v i = (JValue.arr (jnulls (i + 1)), JValue.null)) ∧
    (∀ xs i, jlen xs ≤ i →
      subscriptIdx (JValue.arr xs) i =
        (JValue.arr (jcat xs (jnulls (i + 1 - jlen xs))), JValue.null)) ∧
    (∀ xs i, i < jlen xs →
      subscriptIdx (JValue.arr xs) i = (JValue.arr xs, jget xs i)) ∧
    (subscriptIdxAssign JValue.null 3 (JValue.integral 7) =
      JValue.arr (JList.cons JValue.null (JList.cons JValue.null (JList.cons JValue.null
        (JList.cons (JValue.integral 7) JList.nil)))) ∧
     jlen (listOf (subscriptIdxAssign JValue.null 3 (JValue.integral 7))) = 4 ∧
     jget (listOf (subscriptIdxAssign JValue.null 3 (JValue.integral 7))) 0 = JValue.null ∧
     jget (listOf (subscriptIdxAssign JValue.null 3 (JValue.integral 7))) 1 = JValue.null ∧
     jget (listOf (subscriptIdxAssign JValue.null 3 (JValue.integral 7))) 2 = JValue.null) := by
  refine ⟨?_, ?_, ?_, ?_, rfl, rfl, rfl, rfl, rfl⟩
  · intro v i
    unfold subscriptIdx
    by_cases h : jlen (listOf (SetType v JClass.array)) ≤ i <;> simp [h, JClassOf]
  · intro v i h
    have hl : listOf (SetType v JClass.array) = JList.nil := by
      cases v <;> simp_all [SetType, JClassOf, makeDefault, listOf]
    have hg : jget (jnulls (i + 1)) i = JValue.null := jget_jnulls (i + 1) i (by omega)
    simp [subscriptIdx, hl, jlen, jcat, hg]
  · intro xs i h
    have hv : listOf (SetType (JValue.arr xs) JClass.array) = xs := by
      simp [SetType, JClassOf, listOf]
    have hg : jget (jcat xs (jnulls (i + 1 - jlen xs))) i = JValue.null := by
      have hi : i = jlen xs + (i - jlen xs) := by omega
      rw [hi, jget_jcat_right]
      exact jget_jnulls _ _ (by omega)
    simp [subscriptIdx, hv, h, hg]
  · intro xs i h
    have hv : listOf (SetType (JValue.arr xs) JClass.array) = xs := by
      simp [SetType, JClassOf, listOf]
    simp [subscriptIdx, hv, Nat.not_le.mpr h]

/-- C5 witness: concrete instance of the padding clause at a one-element
array grown by access at index 2. -/
theorem c5_indexed_access_padding_witness :
    jlen (JList.cons (JValue.integral 1) JList.nil) ≤ 2 ∧
    subscriptIdx (JValue.arr (JList.cons (JValue.integral 1) JList.nil)) 2 =
      (JValue.arr (JList.cons (JValue.integral 1) (JList.cons JValue.null
        (JList.cons JValue.null JList.nil))), JValue.null) :=
  ⟨by decide, by
    have h := c5_indexed_access_padding.2.2.1 (JList.cons (JValue.integral 1) JList.nil) 2
      (by decide)
    simpa [jlen, jcat, jnulls] using h⟩

/-- C6: ToInt resolves in source order: Integral verbatim, Boolean as 0/1,
Floating truncated toward zero, String through std::from_chars (0 and
failure when no digits are found), any other tag 0 with failure; in
particular the string "42" converts to (42, true) and "abc" to (0, false). -/
theorem c6_toint_order :
    (∀ n, toIntOk (JValue.integral n) = (n, true)) ∧
    (∀ b, toIntOk (JValue.boolean b) = (if b then 1 else 0, true)) ∧
    (∀ q, toIntOk (JValue.floating q) = (ratTrunc q, true)) ∧
    (∀ s n, fromCharsInt s = some n → toIntOk (JValue.str s) = (n, true)) ∧
    (∀ s, fromCharsInt s = none → toIntOk (JValue.str s) = (0, false)) ∧
    toIntOk JValue.null = (0, false) ∧
    (∀ xs, toIntOk (JValue.arr xs) = (0, false)) ∧
    (∀ es, toIntOk (JValue.obj es) = (0, false)) ∧
    toIntOk (JValue.str "42".toList) = (42, true) ∧
    toIntOk (JValue.str "abc".toList) = (0, false) := by
  refine ⟨fun n => rfl, fun b => rfl, fun q => rfl, ?_, ?_, rfl, fun xs => rfl,
    fun es => rfl, by decide, by decide⟩
  · intro s n h
    simp [toIntOk, h]
  · intro s h
    simp [toIntOk, h]

/-- C6 witness: concrete instances of the String clauses. -/
theorem c6_toint_order_witness :
    fromCharsInt "42".toList = some 42 ∧ toIntOk (JValue.str "42".toList) = (42, true) ∧
    fromCharsInt "abc".toList = none ∧ toIntOk (JValue.str "abc".toList) = (0, false) :=
  ⟨by decide, c6_toint_order.2.2.2.1 "42".toList 42 (by decide), by decide,
    c6_toint_order.2.2.2.2.1 "abc".toList (by decide)⟩

/-- C7: parsing the unterminated array text "[1,2" runs the cursor past the
end of the input: the element loop, after the number parser stops at the
terminator position, calls consume_ws at offset 5 of the 4-character buffer,
an out-of-bounds read (undefined behaviour in the C++ source).  The model
therefore yields the distinguished overrun outcome instead of a clean
return with the failure flag. -/
theorem c7_unterminated_array_overrun :
    JSONLoad "[1,2".toList 50 = POut.oob := rfl

/-- C8: const at(key) requires the Object tag (on any other tag it
dereferences the wrong union member, modelled as the notAnObject error); on
an Object a missing key fails with the distinct KeyNotFound condition
(std::map::at throwing std::out_of_range) instead of defaulting or creating
the key, and a present key is returned unchanged. -/
theorem c8_const_at_keynotfound :
    (∀ es k, mapFind k es = none →
      atConstKey (JValue.obj es) k = Except.error AtErr.keyNotFound) ∧
    (∀ es k w, mapFind k es = some w → atConstKey (JValue.obj es) k = Except.ok w) ∧
    (∀ v k, JClassOf v ≠ JClass.object → atConstKey v k = Except.error AtErr.notAnObject) := by
  refine ⟨?_, ?_, ?_⟩
  · intro es k h
    simp [atConstKey, h]
  · intro es k w h
    simp [atConstKey, h]
  · intro v k h
    cases v <;> simp_all [atConstKey, JClassOf]

/-- C8 witness: concrete missing-key instance. -/
theorem c8_const_at_keynotfound_witness :
    mapFind "z".toList JEntries.nil = none ∧
    atConstKey (JValue.obj JEntries.nil) "z".toList = Except.error AtErr.keyNotFound :=
  ⟨rfl, c8_const_at_keynotfound.1 JEntries.nil "z".toList rfl⟩

/-- C9: move construction and move assignment transfer the payload: the
destination ends up structurally equal to the value the source held before
the move, and the moved-from node is reset to the Null tag. -/
theorem c9_move_semantics :
    (∀ a, moveConstruct a = (a, JValue.null)) ∧
    (∀ a b, moveAssign b a = (a, JValue.null)) ∧
    (∀ a, JClassOf (moveConstruct a).2 = JClass.null) ∧
    (∀ a b, JClassOf (moveAssign b a).2 = JClass.null) :=
  ⟨fun _ => rfl, fun _ _ => rfl, fun _ => rfl, fun _ _ => rfl⟩

/-- C10: the mutable at overloads are extensionally the subscript operators
(the source delegates verbatim), so they coerce and create slots exactly as
operator[] does; only the const at overloads require the matching tag. -/
theorem c10_mutable_at_equals_subscript :
    (∀ v k, atMutKey v k = subscriptKey v k) ∧
    (∀ v i, atMutIdx v i = subscriptIdx v i) ∧
    (∀ v k, JClassOf v ≠ JClass.object → atConstKey v k = Except.error AtErr.notAnObject) ∧
    (∀ v i, JClassOf v ≠ JClass.array → atConstIdx v i = Except.error AtErr.notAnArray) := by
  refine ⟨fun v k => rfl, fun v i => rfl, ?_, ?_⟩
  · intro v k h
    cases v <;> simp_all [atConstKey, JClassOf]
  · intro v i h
    cases v <;> simp_all [atConstIdx, JClassOf]

/-- C10 witness: the mutable at on a Null value vivifies like operator[],
and the const at overloads reject the mismatched tag. -/
theorem c10_mutable_at_equals_subscript_witness :
    atMutKey JValue.null "a".toList = subscriptKey JValue.null "a".toList ∧
    JClassOf JValue.null ≠ JClass.object ∧
    atConstKey JValue.null "a".toList = Except.error AtErr.notAnObject ∧
    JClassOf JValue.null ≠ JClass.array ∧
    atConstIdx JValue.null 0 = Except.error AtErr.notAnArray :=
  ⟨c10_mutable_at_equals_subscript.1 JValue.null "a".toList, by decide,
    c10_mutable_at_equals_subscript.2.2.1 JValue.null "a".toList (by decide), by decide,
    c10_mutable_at_equals_subscript.2.2.2 JValue.null 0 (by decide)⟩

/-- C1 counterexample: the round-trip fails already at the programmatically
built value Integral 5.  Its minified dump is the bare text "5"; parse_number
then reads the string terminator where it demands whitespace, ',', ']' or
'}', so JSON::Load returns Null with the success flag false — the parse does
not succeed and the result is not structurally equal to the original. -/
theorem c1_roundtrip_counterexample :
    dumpMinified (JValue.integral 5) = "5".toList ∧
    JSONLoad (dumpMinified (JValue.integral 5)) 50 = POut.done (JValue.null, false) ∧
    flagOf (JSONLoad (dumpMinified (JValue.integral 5)) 50) = false :=
  ⟨rfl, rfl, rfl⟩

/-- C2 counterexample: idempotence fails at the same value Integral 5:
dumpMinified(Load(dumpMinified(5))) is the text "null" (Load failed and
returned Null), which differs byte for byte from dumpMinified(5) = "5". -/
theorem c2_idempotence_counterexample :
    loadThenDump (dumpMinified (JValue.integral 5)) 50 = "null".toList ∧
    (("null".toList == "5".toList) = false) :=
  ⟨rfl, rfl⟩

/-- Load-level round-trip: parsing the minified dump of a round-trip-safe
value whose root is not a bare Integral number succeeds and reconstructs the
value exactly. -/
theorem roundtrip_load (V : JValue) (hsafe : rtSafeV V = true)
    (hroot : JClassOf V ≠ JClass.integral) (fl : Nat) (hfl : needV V ≤ fl) :
    JSONLoad (dumpMinified V) fl = POut.done (V, true) := by
  have h := rt_value V [] [] true fl hsafe (fun hcl => absurd hcl hroot) hfl
  simp only [List.nil_append, List.append_nil, List.length_nil] at h
  unfold JSONLoad
  rw [h]
  rfl

/-- C1 (amended): for every programmatically built value V that contains no
Floating node, whose object keys contain none of the characters rewritten by
json_escape, whose object entry lists are in the strictly ascending key order
std::map maintains, and whose root is not an Integral number, parsing the
output of dumpMinified with JSON::Load succeeds and yields a value
structurally equal to V. -/
theorem c1_roundtrip_amended (V : JValue) (fl : Nat)
    (hsafe : rtSafeV V = true) (hroot : JClassOf V ≠ JClass.integral)
    (hfl : needV V ≤ fl) :
    JSONLoad (dumpMinified V) fl = POut.done (V, true) :=
  roundtrip_load V hsafe hroot fl hfl

/-- C1 witness: the amended round-trip at the concrete object
with entries a bound to the array of 1 and null, and b bound to "x". -/
theorem c1_roundtrip_amended_witness :
    rtSafeV (JValue.obj (JEntries.cons "a".toList
      (JValue.arr (JList.cons (JValue.integral 1) (JList.cons JValue.null JList.nil)))
      (JEntries.cons "b".toList (JValue.str "x".toList) JEntries.nil))) = true ∧
    needV (JValue.obj (JEntries.cons "a".toList
      (JValue.arr (JList.cons (JValue.integral 1) (JList.cons JValue.null JList.nil)))
      (JEntries.cons "b".toList (JValue.str "x".toList) JEntries.nil))) ≤ 200 ∧
    JSONLoad (dumpMinified (JValue.obj (JEntries.cons "a".toList
      (JValue.arr (JList.cons (JValue.integral 1) (JList.cons JValue.null JList.nil)))
      (JEntries.cons "b".toList (JValue.str "x".toList) JEntries.nil)))) 200 =
      POut.done (JValue.obj (JEntries.cons "a".toList
        (JValue.arr (JList.cons (JValue.integral 1) (JList.cons JValue.null JList.nil)))
        (JEntries.cons "b".toList (JValue.str "x".toList) JEntries.nil)), true) :=
  ⟨by decide, by decide,
    c1_roundtrip_amended (JValue.obj (JEntries.cons "a".toList
      (JValue.arr (JList.cons (JValue.integral 1) (JList.cons JValue.null JList.nil)))
      (JEntries.cons "b".toList (JValue.str "x".toList) JEntries.nil))) 200
      (by decide) (by decide) (by decide)⟩

/-- C2 (amended): under the same conditions as the amended C1 (no Floating
node, serialization-safe object keys, map-ordered entries, root not a bare
Integral), serialization is idempotent through a parse: dumpMinified applied
to Load(dumpMinified(V)) is byte for byte dumpMinified(V). -/
theorem c2_idempotence_amended (V : JValue) (fl : Nat)
    (hsafe : rtSafeV V = true) (hroot : JClassOf V ≠ JClass.integral)
    (hfl : needV V ≤ fl) :
    loadThenDump (dumpMinified V) fl = dumpMinified V := by
  unfold loadThenDump
  rw [roundtrip_load V hsafe hroot fl hfl]

/-- C2 witness: idempotence at the concrete array of true, "y" and the empty
object. -/
theorem c2_idempotence_amended_witness :
    rtSafeV (JValue.arr (JList.cons (JValue.boolean true)
      (JList.cons (JValue.str "y".toList)
        (JList.cons (JValue.obj JEntries.nil) JList.nil)))) = true ∧
    needV (JValue.arr (JList.cons (JValue.boolean true)
      (JList.cons (JValue.str "y".toList)
        (JList.cons (JValue.obj JEntries.nil) JList.nil)))) ≤ 100 ∧
    loadThenDump (dumpMinified (JValue.arr (JList.cons (JValue.boolean true)
      (JList.cons (JValue.str "y".toList)
        (JList.cons (JValue.obj JEntries.nil) JList.nil))))) 100 =
      dumpMinified (JValue.arr (JList.cons (JValue.boolean true)
        (JList.cons (JValue.str "y".toList)
          (JList.cons (JValue.obj JEntries.nil) JList.nil)))) :=
  ⟨by decide, by decide,
    c2_idempotence_amended (JValue.arr (JList.cons (JValue.boolean true)
      (JList.cons (JValue.str "y".toList)
        (JList.cons (JValue.obj JEntries.nil) JList.nil)))) 100
      (by decide) (by decide) (by decide)⟩

end SupportLibJson
